import Mathlib

/-
Verification development for the ts-router component runtime.

Shallow embedding of the four subsystems the checked claims concern:

1. FeaturePlan   - src/components/feature/featureSpecs.ts
                   (collectDependencies, buildFeaturePlan)
2. LayoutCore    - src/components/Layout.ts
                   (mountTo, destroy, ensureRoot) as a trace semantics
3. ChildrenF     - src/components/feature/ChildrenFeature.ts
                   (attach, detach, register, onDestroy) as a step relation
4. SlotsF        - src/components/feature/SlotsFeature.ts
                   (setSlot, flush, onRootCreated)

JavaScript runtime values are modelled as follows: constructors are indices
into an environment list (so that static dependency arrays may reference
each other cyclically, as object references can in JavaScript); recursion
depth is modelled with explicit fuel (a run that exhausts every fuel budget
models unbounded recursion, i.e. a stack overflow); thrown errors are an
error result; DOM side effects and lifecycle hook invocations are events in
a trace.
-/

namespace FeaturePlan

/-- A feature specification, mirroring the union type FeatureSpec: either a
bare constructor or a request object with an optional name override. A
constructor is an index into the constructor environment. -/
inductive Spec where
  | ctorSpec (id : Nat)
  | request (name : Option String) (id : Nat)
deriving DecidableEq, Repr

/-- Static data carried by a feature constructor: its featureName (none
models a missing name, some "" an empty one, both falsy in JavaScript) and
its static dependencies list. -/
structure CtorData where
  featureName : Option String
  dependencies : List Spec
deriving DecidableEq, Repr

/-- The constructor environment: constructor id maps to its static data. -/
abbrev Env := List CtorData

/-- One entry of the installation plan, mirroring FeaturePlanEntry. The
instance field of the source is always undefined (normalizeSpec returns
instance undefined in both branches), so it is omitted. -/
structure PlanEntry where
  name : String
  ctorId : Nat
  expose : Bool
deriving DecidableEq, Repr

/-- Result of a run of collectDependencies: a normal return with the final
plan, a thrown error, or fuel exhaustion (modelling unbounded recursion). -/
inductive CollectResult where
  | ok (plan : List PlanEntry)
  | error
  | diverge
deriving DecidableEq, Repr

/-- The constructor id a specification refers to. -/
def Spec.idOf : Spec → Nat
  | .ctorSpec id => id
  | .request _ id => id

/-- The JavaScript falsiness check on a resolved name: none and the empty
string both fail the check in the source (if (!name) throw ...). -/
def goodName : Option String → Option String
  | some nm => if nm = "" then none else some nm
  | none => none

/-- Name resolution of a specification, mirroring
request.name ?? request.feature.featureName followed by the falsiness
check. A request with an explicit name never consults the constructor. -/
def resolveName (env : Env) : Spec → Option String
  | .ctorSpec id =>
    match env.get? id with
    | some cd => goodName cd.featureName
    | none => none
  | .request n? id =>
    match n? with
    | some nm => if nm = "" then none else some nm
    | none =>
      match env.get? id with
      | some cd => goodName cd.featureName
      | none => none

/-- Whether the insertion-ordered plan already holds an entry under the
given name, mirroring plan.get(name) truthiness. -/
def containsName (plan : List PlanEntry) (name : String) : Bool :=
  plan.any (fun e => e.name = name)

/-- In-place mutation existing.expose = true of the entry stored under the
given name, position preserved. -/
def markExposed (plan : List PlanEntry) (name : String) : List PlanEntry :=
  plan.map (fun e => if e.name = name then { e with expose := true } else e)

/-- JavaScript Map.set semantics on an insertion-ordered map: an existing
key keeps its original position and has its value replaced; a new key is
appended at the end. -/
def planSet (plan : List PlanEntry) (entry : PlanEntry) : List PlanEntry :=
  if containsName plan entry.name then
    plan.map (fun e => if e.name = entry.name then entry else e)
  else
    plan ++ [entry]

/-- The for-loop over a dependency list: run f on each dependency in order,
threading the plan, stopping at the first error or fuel exhaustion. -/
def collectList (f : Spec → List PlanEntry → CollectResult) :
    List Spec → List PlanEntry → CollectResult
  | [], plan => .ok plan
  | d :: rest, plan =>
    match f d plan with
    | .ok p2 => collectList f rest p2
    | r => r

/-- Embedding of collectDependencies. Fuel bounds the recursion depth; each
nested recursive call costs one unit, so a run returning diverge for every
fuel budget models non-terminating recursion (stack overflow). The body
mirrors the source order: resolve the name (throw if falsy), return early
when the name is already planned (OR-ing the exposed flag), otherwise
recurse into the declared dependencies with expose false and finally
Map.set the entry for this specification. -/
def collectDependencies (env : Env) :
    Nat → Spec → Bool → List PlanEntry → CollectResult
  | 0, _, _, _ => .diverge
  | fuel + 1, spec, expose, plan =>
    match resolveName env spec with
    | none => .error
    | some name =>
      if containsName plan name then
        .ok (if expose then markExposed plan name else plan)
      else
        match env.get? spec.idOf with
        | none => .error
        | some cd =>
          match collectList (fun d p => collectDependencies env fuel d false p)
              cd.dependencies plan with
          | .ok p2 => .ok (planSet p2 { name := name, ctorId := spec.idOf, expose := expose })
          | r => r

/-- The loop of buildFeaturePlan over the top-level specifications, each
visited with expose true. Each top-level call starts with the full fuel
budget, matching the fact that the JavaScript call stack unwinds between
top-level iterations. -/
def buildLoop (env : Env) (fuel : Nat) :
    List Spec → List PlanEntry → CollectResult
  | [], plan => .ok plan
  | s :: rest, plan =>
    match collectDependencies env fuel s true plan with
    | .ok p2 => buildLoop env fuel rest p2
    | r => r

/-- Embedding of buildFeaturePlan: fold collectDependencies over the
specification list starting from the empty map and return the values in
insertion order (the plan list is exactly that order). -/
def buildFeaturePlan (env : Env) (fuel : Nat) (specs : List Spec) : CollectResult :=
  buildLoop env fuel specs []

/-- A specification list diverges when every fuel budget is exhausted,
i.e. the recursion of collectDependencies never returns. -/
def buildDiverges (env : Env) (specs : List Spec) : Prop :=
  ∀ fuel, buildFeaturePlan env fuel specs = .diverge

/-- Analysis variant of collectDependencies that refuses (with an error)
the one behaviour in which Map.set overwrites an existing entry: the case
where the name of the specification being inserted was introduced into the
plan while its own dependencies were being visited (a name collision
between a plugin and a plugin inside its dependency subtree). On runs
where that never happens it agrees with collectDependencies exactly. -/
def collectNoOverwrite (env : Env) :
    Nat → Spec → Bool → List PlanEntry → CollectResult
  | 0, _, _, _ => .diverge
  | fuel + 1, spec, expose, plan =>
    match resolveName env spec with
    | none => .error
    | some name =>
      if containsName plan name then
        .ok (if expose then markExposed plan name else plan)
      else
        match env.get? spec.idOf with
        | none => .error
        | some cd =>
          match collectList (fun d p => collectNoOverwrite env fuel d false p)
              cd.dependencies plan with
          | .ok p2 =>
            if containsName p2 name then .error
            else .ok (p2 ++ [{ name := name, ctorId := spec.idOf, expose := expose }])
          | r => r

/-- Top-level loop of the no-overwrite analysis variant. -/
def buildLoopNoOverwrite (env : Env) (fuel : Nat) :
    List Spec → List PlanEntry → CollectResult
  | [], plan => .ok plan
  | s :: rest, plan =>
    match collectNoOverwrite env fuel s true plan with
    | .ok p2 => buildLoopNoOverwrite env fuel rest p2
    | r => r

/-- buildFeaturePlan restricted to overwrite-free runs. -/
def buildFeaturePlanNoOverwrite (env : Env) (fuel : Nat) (specs : List Spec) : CollectResult :=
  buildLoopNoOverwrite env fuel specs []

/-- The plan names are pairwise distinct. -/
def nodupNames (plan : List PlanEntry) : Prop :=
  (plan.map (fun e => e.name)).Nodup

/-- The name n is held by some exposed entry of the plan. -/
def exposedIn (plan : List PlanEntry) (n : String) : Prop :=
  ∃ e ∈ plan, e.name = n ∧ e.expose = true

/-- Every dependency declared by the constructor of any plan entry resolves
to a name that occurs strictly earlier in the plan. -/
def DepClosed (env : Env) (plan : List PlanEntry) : Prop :=
  ∀ j e, plan.get? j = some e → ∀ cd, env.get? e.ctorId = some cd →
    ∀ d ∈ cd.dependencies, ∃ m, resolveName env d = some m ∧
      ∃ i, i < j ∧ ∃ e2, plan.get? i = some e2 ∧ e2.name = m

/-- A rank function witnessing that the static dependency declarations are
well founded: every declared dependency has strictly smaller rank than the
declaring constructor. -/
def RankedDeps (env : Env) (rank : Nat → Nat) : Prop :=
  ∀ id cd, env.get? id = some cd → ∀ d ∈ cd.dependencies, rank d.idOf < rank id

end FeaturePlan

namespace LayoutCore

/-- A DOM element tree: tag name and element children. The parsed form of
an HTML string is a list of such trees (its top-level elements, matching
childElementCount which counts only element children). -/
inductive DomTree where
  | el (tag : String) (children : List DomTree)

/-- The value travelling through the afterRender chain of ensureRoot:
an HTMLElement, an HTML string (represented by its parse: the list of
top-level elements of the trimmed string), or any unsupported value. -/
inductive RenderValue where
  | elem (e : DomTree)
  | htmlString (frag : List DomTree)
  | other

/-- Error message thrown by ensureRoot for a string with zero or several
top-level elements. -/
def rootErrMsg : String :=
  "renderStructure(): HTML string must contain exactly one root element. Example: <section>...</section>"

/-- Error message thrown by ensureRoot for an unsupported render value. -/
def elemErrMsg : String :=
  "renderStructure() must return HTMLElement"

/-- Resolution of the final afterRender value into the root element,
mirroring the tail of ensureRoot: a string parse must have exactly one
top-level element, and the final value must be an element. -/
def resolveRoot : RenderValue → Except String DomTree
  | .htmlString frag =>
    match frag with
    | [e] => .ok e
    | _ => .error rootErrMsg
  | .elem e => .ok e
  | .other => .error elemErrMsg

/-- Model of one installed feature as seen by Layout: which optional hooks
its instance defines, what its afterRender hook computes, and which
cleanup token (if any) each cleanup-returning hook returns. A hook field
that is none models an instance without that method (the optional call
f.hook?.() then does nothing); some none models a hook returning undefined
(registerCleanup ignores it); some (some tok) models a hook returning the
cleanup callback identified by tok. -/
structure FeatModel where
  beforeRender : Bool
  afterRender : Option (RenderValue → RenderValue)
  onRootCreated : Bool
  beforeMountRoot : Bool
  onMounted : Option (Option Nat)
  afterMounted : Option (Option Nat)
  beforeDestroy : Bool
  onDestroy : Option (Option Nat)
  afterDestroy : Option (Option Nat)

/-- The concrete component: its installed features in registry order, the
renderStructure value, and which optional subclass hooks it overrides. -/
structure LayoutModel where
  feats : List FeatModel
  render : RenderValue
  hasBeforeMount : Bool
  hasAfterMount : Bool
  hasBeforeUnmount : Bool
  hasUnmounted : Bool

/-- Observable events of a Layout run: lifecycle hook invocations (indexed
by feature position for broadcasts), DOM effects, cleanup executions and
listener removals. -/
inductive Ev where
  | beforeRenderB (i : Nat)
  | renderStructure
  | afterRenderB (i : Nat)
  | rootCreatedB (i : Nat)
  | beforeMountRootB (i : Nat)
  | beforeMountHook
  | append (container : Nat)
  | onMountedB (i : Nat)
  | afterMountHook
  | afterMountedB (i : Nat)
  | beforeDestroyB (i : Nat)
  | beforeUnmountHook
  | onDestroyB (i : Nat)
  | runCleanup (tok : Nat)
  | removeRoot
  | afterDestroyB (i : Nat)
  | unmountedHook
  | listenerOff (tok : Nat)
deriving DecidableEq, Repr

/-- Mutable state of a Layout instance: the lazily created root (never
reset, even by destroy), the mounted flag, the registered cleanup
callbacks and the addEvent listener removers. -/
structure LState where
  root : Option DomTree
  mounted : Bool
  cleanups : List Nat
  listeners : List Nat

/-- The state of a freshly constructed instance. -/
def linit : LState :=
  { root := none, mounted := false, cleanups := [], listeners := [] }

/-- Broadcast of an optional hook over the feature registry in order: one
event per feature that defines the hook. -/
def bcast (feats : List FeatModel) (hasHook : FeatModel → Bool) (mk : Nat → Ev) : List Ev :=
  feats.enum.filterMap (fun p => if hasHook p.2 then some (mk p.1) else none)

/-- Worker for a cleanup-collecting broadcast: invoke the hook of each
feature that defines it, register any returned cleanup token (in order)
and record the invocation events. -/
def bcastCleanupGo (hook : FeatModel → Option (Option Nat)) (mk : Nat → Ev) :
    List (Nat × FeatModel) → List Nat → List Nat × List Ev
  | [], cl => (cl, [])
  | p :: rest, cl =>
    match hook p.2 with
    | none => bcastCleanupGo hook mk rest cl
    | some c =>
      let cl1 := match c with
        | some tok => cl ++ [tok]
        | none => cl
      let r := bcastCleanupGo hook mk rest cl1
      (r.1, mk p.1 :: r.2)

/-- A cleanup-collecting broadcast over the feature registry, mirroring
forEachFeature combined with registerCleanup. -/
def bcastCleanup (feats : List FeatModel) (hook : FeatModel → Option (Option Nat))
    (mk : Nat → Ev) (cleanups : List Nat) : List Nat × List Ev :=
  bcastCleanupGo hook mk feats.enum cleanups

/-- Worker for the afterRender chain: each feature that defines afterRender
receives the previous value and returns the next one. -/
def runAfterRenderGo : List (Nat × FeatModel) → RenderValue → RenderValue × List Ev
  | [], v => (v, [])
  | p :: rest, v =>
    match p.2.afterRender with
    | none => runAfterRenderGo rest v
    | some g =>
      let r := runAfterRenderGo rest (g v)
      (r.1, Ev.afterRenderB p.1 :: r.2)

/-- The afterRender chain of ensureRoot in installation order. -/
def runAfterRender (feats : List FeatModel) (v : RenderValue) : RenderValue × List Ev :=
  runAfterRenderGo feats.enum v

/-- Embedding of Layout.ensureRoot: broadcast beforeRender, call
renderStructure, run the afterRender chain, resolve the final value into
the root element (or throw), store it and broadcast onRootCreated. -/
def ensureRoot (M : LayoutModel) (s : LState) : Except String (LState × List Ev) :=
  let evs1 := bcast M.feats (fun f => f.beforeRender) Ev.beforeRenderB
  let vr := runAfterRender M.feats M.render
  match resolveRoot vr.1 with
  | .error msg => .error msg
  | .ok node =>
    .ok ({ s with root := some node },
      evs1 ++ [Ev.renderStructure] ++ vr.2 ++
        bcast M.feats (fun f => f.onRootCreated) Ev.rootCreatedB)

/-- Embedding of Layout.mountTo: lazily ensure the root, run the first-time
block (beforeMountRoot broadcast then the beforeMount subclass hook) only
when the instance is not currently mounted, append the root into the
container, set the mounted flag, broadcast onMounted collecting cleanups,
run the afterMount subclass hook, broadcast afterMounted collecting
cleanups. -/
def mountTo (M : LayoutModel) (s : LState) (container : Nat) :
    Except String (LState × List Ev) :=
  match (if s.root.isNone then ensureRoot M s else .ok (s, [])) with
  | .error msg => .error msg
  | .ok (s1, evs0) =>
    let evsFirst :=
      if s1.mounted then []
      else
        bcast M.feats (fun f => f.beforeMountRoot) Ev.beforeMountRootB ++
          (if M.hasBeforeMount then [Ev.beforeMountHook] else [])
    let om := bcastCleanup M.feats (fun f => f.onMounted) Ev.onMountedB s1.cleanups
    let am := bcastCleanup M.feats (fun f => f.afterMounted) Ev.afterMountedB om.1
    .ok ({ s1 with mounted := true, cleanups := am.1 },
      evs0 ++ evsFirst ++ [Ev.append container] ++ om.2 ++
        (if M.hasAfterMount then [Ev.afterMountHook] else []) ++ am.2)

/-- Embedding of Layout.destroy: the beforeDestroy broadcast runs
unconditionally; when the instance is mounted with a root, run the
beforeUnmount hook, the onDestroy broadcast, flush every registered
cleanup, detach the root, clear the mounted flag, the afterDestroy
broadcast, flush again, and the unmounted hook; otherwise only flush the
registered cleanups. In both branches finally remove every listener. -/
def destroy (M : LayoutModel) (s : LState) : LState × List Ev :=
  let evs1 := bcast M.feats (fun f => f.beforeDestroy) Ev.beforeDestroyB
  if s.mounted ∧ s.root.isSome then
    let od := bcastCleanup M.feats (fun f => f.onDestroy) Ev.onDestroyB s.cleanups
    let ad := bcastCleanup M.feats (fun f => f.afterDestroy) Ev.afterDestroyB []
    ({ s with mounted := false, cleanups := [], listeners := [] },
      evs1 ++ (if M.hasBeforeUnmount then [Ev.beforeUnmountHook] else []) ++
        od.2 ++ od.1.map Ev.runCleanup ++ [Ev.removeRoot] ++
        ad.2 ++ ad.1.map Ev.runCleanup ++
        (if M.hasUnmounted then [Ev.unmountedHook] else []) ++
        s.listeners.map Ev.listenerOff)
  else
    ({ s with cleanups := [], listeners := [] },
      evs1 ++ s.cleanups.map Ev.runCleanup ++ s.listeners.map Ev.listenerOff)

/-- Resulting state of a mount attempt (the unchanged argument state on a
thrown error, matching an exception propagating before mutation). -/
def resState (r : Except String (LState × List Ev)) (s : LState) : LState :=
  match r with
  | .ok p => p.1
  | .error _ => s

/-- Trace of a mount attempt; empty on a throw before any event. -/
def resTrace (r : Except String (LState × List Ev)) : List Ev :=
  match r with
  | .ok p => p.2
  | .error _ => []

end LayoutCore

namespace ChildrenF

/-- State of a ChildrenFeature instance: the owned set (a JavaScript Set,
i.e. an insertion-ordered list without duplicates) and the pending list of
composition children awaiting mount. Children and host containers are
identified by numbers. -/
structure CState where
  children : List Nat
  pending : List (Nat × Nat)
deriving DecidableEq, Repr

/-- Initial feature state. -/
def cinit : CState :=
  { children := [], pending := [] }

/-- Observable events of the feature: a child mount (or a mount attempt
that throws) and a child destroy. -/
inductive CEv where
  | mountChild (c : Nat) (host : Nat)
  | mountChildFailed (c : Nat) (host : Nat)
  | destroyChild (c : Nat)
deriving DecidableEq, Repr

/-- Set.add: append if absent, otherwise keep the set unchanged. -/
def setAdd (l : List Nat) (x : Nat) : List Nat :=
  if x ∈ l then l else l ++ [x]

/-- Operations driving a ChildrenFeature instance. attach carries whether
the awaited child.mountTo resolves or rejects; composeRender models
afterRender receiving a Layout (host element creation plus pending and
owned-set insertion); onMounted mounts the pending children; hostDestroy
is the onDestroy hook run by the destroy of a mounted host. -/
inductive COp where
  | attach (c : Nat) (host : Nat) (mountOk : Bool)
  | detach (c : Nat)
  | register (c : Nat)
  | composeRender (c : Nat) (host : Nat)
  | onMounted
  | hostDestroy
deriving DecidableEq, Repr

/-- One operation step, mirroring the feature methods: attach awaits
child.mountTo and only then adds to the owned set (a rejection leaves the
set untouched); detach removes and destroys only an owned child; register
adds without mounting; onDestroy first mounts any pending children, then
destroys every owned child in insertion order and clears the set. -/
def cstep (s : CState) : COp → CState × List CEv
  | .attach c host mountOk =>
    if mountOk then
      ({ s with children := setAdd s.children c }, [.mountChild c host])
    else
      (s, [.mountChildFailed c host])
  | .detach c =>
    if c ∈ s.children then
      ({ s with children := s.children.filter (fun y => y ≠ c) }, [.destroyChild c])
    else
      (s, [])
  | .register c =>
    ({ s with children := setAdd s.children c }, [])
  | .composeRender c host =>
    ({ children := setAdd s.children c, pending := s.pending ++ [(host, c)] }, [])
  | .onMounted =>
    ({ s with pending := [] }, s.pending.map (fun p => .mountChild p.2 p.1))
  | .hostDestroy =>
    ({ children := [], pending := [] },
      s.pending.map (fun p => .mountChild p.2 p.1) ++ s.children.map .destroyChild)

/-- Run a sequence of operations, accumulating the trace. -/
def crun : List COp → CState → CState × List CEv
  | [], s => (s, [])
  | op :: rest, s =>
    let r := cstep s op
    let r2 := crun rest r.1
    (r2.1, r.2 ++ r2.2)

/-- Whether an operation adds the child c to the owned set: a successful
attach, a register, or a composition. -/
def addsChild (op : COp) (c : Nat) : Bool :=
  match op with
  | .attach c2 _ mountOk => mountOk && c2 = c
  | .register c2 => c2 = c
  | .composeRender c2 _ => c2 = c
  | _ => false

/-- After any detach of c, no later operation adds c again. -/
def noAddAfterDetach (c : Nat) : List COp → Prop
  | [] => True
  | op :: rest =>
    (op = .detach c → ∀ op2 ∈ rest, addsChild op2 c = false) ∧ noAddAfterDetach c rest

/-- Number of destroy invocations of child c in a trace. -/
def destCount (t : List CEv) (c : Nat) : Nat :=
  t.count (.destroyChild c)

end ChildrenF

namespace SlotsF

/-- Content of a slot region: a text node (from a string), a raw DOM node,
or a mounted child layout, the latter two identified by numbers. -/
inductive SlotContent where
  | text (s : String)
  | node (n : Nat)
  | layout (c : Nat)
deriving DecidableEq, Repr

/-- Lookup in an insertion-ordered association list (JavaScript Map.get). -/
def alGet {α : Type} (m : List (String × α)) (k : String) : Option α :=
  (m.find? (fun p => p.1 = k)).map (fun p => p.2)

/-- JavaScript Map.set on an insertion-ordered association list: an
existing key keeps its position and has its value replaced, a new key is
appended. -/
def alSet {α : Type} (m : List (String × α)) (k : String) (v : α) : List (String × α) :=
  if m.any (fun p => p.1 = k) then
    m.map (fun p => if p.1 = k then (k, v) else p)
  else
    m ++ [(k, v)]

/-- State of a SlotsFeature instance: the discovered template placeholders
(name mapped to the original template content), the wrapped slot regions
(name mapped to the nodes currently between the markers; a name is present
exactly when the marker pair exists), the pending queue per name, and the
re-entrancy flag of flush. -/
structure SState where
  slotMap : List (String × List SlotContent)
  wrapped : List (String × List SlotContent)
  pending : List (String × List SlotContent)
  flushing : Bool
deriving DecidableEq, Repr

/-- A slots host: the slots state together with the optional ChildrenFeature
of the same host (setSlot mounts layout content through it when present). -/
structure SHost where
  slots : SState
  childFeat : Option ChildrenF.CState
deriving DecidableEq, Repr

/-- Owned children of the host, empty when no ChildrenFeature is installed. -/
def childrenOf (h : SHost) : List Nat :=
  match h.childFeat with
  | some cs => cs.children
  | none => []

/-- Embedding of SlotsFeature.setSlot. Unknown name: append the content to
the pending queue of that name. Known name: ensure the marker pair exists
(the one-time wrap moves the template content into the region), remove
every node currently between the markers (plain DOM removal, no lifecycle
call), then insert the new content; layout content is mounted into a
fragment through ChildrenFeature.attach when present (adding it to the
owned set) or with a direct mountTo otherwise. The region afterwards holds
exactly the new content. -/
def setSlot (h : SHost) (name : String) (content : SlotContent) :
    SHost × List ChildrenF.CEv :=
  let s := h.slots
  if (alGet s.slotMap name).isNone then
    let list := (alGet s.pending name).getD []
    ({ h with slots := { s with pending := alSet s.pending name (list ++ [content]) } }, [])
  else
    let wrapped1 :=
      if (alGet s.wrapped name).isNone then
        alSet s.wrapped name ((alGet s.slotMap name).getD [])
      else s.wrapped
    let wrapped2 := alSet wrapped1 name []
    let wrapped3 := alSet wrapped2 name [content]
    match content with
    | .layout c =>
      match h.childFeat with
      | some cs =>
        ({ slots := { s with wrapped := wrapped3 },
           childFeat := some { cs with children := ChildrenF.setAdd cs.children c } },
          [.mountChild c 0])
      | none =>
        ({ h with slots := { s with wrapped := wrapped3 } }, [.mountChild c 0])
    | _ =>
      ({ h with slots := { s with wrapped := wrapped3 } }, [])

/-- Replay of a queued content list through setSlot, in submission order. -/
def replay (name : String) : List SlotContent → SHost → SHost × List ChildrenF.CEv
  | [], h => (h, [])
  | it :: rest, h =>
    let r := setSlot h name it
    let r2 := replay name rest r.1
    (r2.1, r.2 ++ r2.2)

/-- The loop of flush over the snapshot of the pending map: a still
undiscovered name has its items put back into the queue (preserving
order), a discovered name has its items replayed through setSlot. -/
def flushLoop : List (String × List SlotContent) → SHost → SHost × List ChildrenF.CEv
  | [], h => (h, [])
  | (name, items) :: rest, h =>
    if (alGet h.slots.slotMap name).isNone then
      let back := (alGet h.slots.pending name).getD []
      flushLoop rest
        { h with slots := { h.slots with pending := alSet h.slots.pending name (back ++ items) } }
    else
      let r := replay name items h
      let r2 := flushLoop rest r.1
      (r2.1, r.2 ++ r2.2)

/-- Embedding of SlotsFeature.flush: guarded by the flushing flag, take a
snapshot of the pending map, clear it, and run the loop. -/
def flush (h : SHost) : SHost × List ChildrenF.CEv :=
  if h.slots.flushing then (h, [])
  else
    let snap := h.slots.pending
    let h1 : SHost := { h with slots := { h.slots with pending := [], flushing := true } }
    let r := flushLoop snap h1
    ({ r.1 with slots := { r.1.slots with flushing := false } }, r.2)

/-- Embedding of SlotsFeature.onRootCreated: record every template
placeholder of the root (later templates of the same name replacing
earlier ones) and flush the queued content. -/
def onRootCreated (h : SHost) (tpls : List (String × List SlotContent)) :
    SHost × List ChildrenF.CEv :=
  let slotMap1 := tpls.foldl (fun m p => alSet m p.1 p.2) h.slots.slotMap
  flush { h with slots := { h.slots with slotMap := slotMap1 } }

/-- Iterated setSlot over a list of values for one name, in order. -/
def setSlots (h : SHost) (name : String) : List SlotContent → SHost × List ChildrenF.CEv
  | [] => (h, [])
  | v :: rest =>
    let r := setSlot h name v
    let r2 := setSlots r.1 name rest
    (r2.1, r.2 ++ r2.2)

end SlotsF

namespace LayoutCore

/-- A feature instance that defines no hook at all. -/
def feat0 : FeatModel :=
  { beforeRender := false, afterRender := none, onRootCreated := false,
    beforeMountRoot := false, onMounted := none, afterMounted := none,
    beforeDestroy := false, onDestroy := none, afterDestroy := none }

/-- Component with one plugin defining only beforeDestroy and no subclass
hooks; renders a plain div element. -/
def M3 : LayoutModel :=
  { feats := [{ feat0 with beforeDestroy := true }],
    render := .elem (DomTree.el "div" []),
    hasBeforeMount := false, hasAfterMount := false,
    hasBeforeUnmount := false, hasUnmounted := false }

/-- State of M3 after its first mount into container 0. -/
def c3s1 : LState :=
  resState (mountTo M3 linit 0) linit

/-- State of M3 after that mount followed by a first destroy. -/
def c3s2 : LState :=
  (destroy M3 c3s1).1

/-- Component with one plugin defining only beforeMountRoot, plus the
beforeMount and afterMount subclass hooks; renders a plain div element. -/
def M5 : LayoutModel :=
  { feats := [{ feat0 with beforeMountRoot := true }],
    render := .elem (DomTree.el "div" []),
    hasBeforeMount := true, hasAfterMount := true,
    hasBeforeUnmount := false, hasUnmounted := false }

/-- State of M5 after its first mount into container 0. -/
def c5s1 : LState :=
  resState (mountTo M5 linit 0) linit

/-- State of M5 after mount into container 0, a second mount into
container 1, and a destroy. -/
def c5s2 : LState :=
  (destroy M5 (resState (mountTo M5 c5s1 1) c5s1)).1

/-- Featureless component rendering a plain element, no subclass hooks. -/
def Mw : LayoutModel :=
  { feats := [], render := .elem (DomTree.el "d" []),
    hasBeforeMount := false, hasAfterMount := false,
    hasBeforeUnmount := false, hasUnmounted := false }

/-- An already mounted state of Mw with no registered cleanups. -/
def sw : LState :=
  { root := some (DomTree.el "d" []), mounted := true, cleanups := [], listeners := [] }

/-- A never mounted state carrying one registered cleanup callback. -/
def s3 : LState :=
  { root := none, mounted := false, cleanups := [7], listeners := [] }

/-- Featureless component whose render returns the markup string with a
single top-level div holding two span children. -/
def M7ok : LayoutModel :=
  { feats := [],
    render := .htmlString [DomTree.el "div" [DomTree.el "span" [], DomTree.el "span" []]],
    hasBeforeMount := false, hasAfterMount := false,
    hasBeforeUnmount := false, hasUnmounted := false }

/-- Featureless component whose render returns the markup string with two
top-level span elements. -/
def M7bad : LayoutModel :=
  { feats := [],
    render := .htmlString [DomTree.el "span" [], DomTree.el "span" []],
    hasBeforeMount := false, hasAfterMount := false,
    hasBeforeUnmount := false, hasUnmounted := false }

end LayoutCore

namespace SlotsF

/-- Host with one discovered slot s whose region currently holds the
mounted child layout 1; the ChildrenFeature is present and owns child 1. -/
def h9 : SHost :=
  ⟨⟨[("s", [])], [("s", [SlotContent.layout 1])], [], false⟩, some ⟨[1], []⟩⟩

/-- Host with one discovered empty slot s and an empty ChildrenFeature. -/
def c9h0 : SHost :=
  ⟨⟨[("s", [])], [], [], false⟩, some ⟨[], []⟩⟩

/-- The host c9h0 after setSlot put child layout 1 into slot s. -/
def c9h1 : SHost :=
  (setSlot c9h0 "s" (SlotContent.layout 1)).1

end SlotsF

namespace FeaturePlan

/-- The contract established by one successful collectDependencies call:
names already planned stay planned, distinctness of names is preserved,
the visited specification resolves to a name that is now planned, and a
name is exposed afterwards exactly when it was exposed before or is the
name of this visit with the expose flag set. -/
def CollectPost (env : Env) (spec : Spec) (expose : Bool) (p p2 : List PlanEntry) : Prop :=
  (∀ n, containsName p n = true → containsName p2 n = true) ∧
  (nodupNames p → nodupNames p2) ∧
  (∃ m, resolveName env spec = some m ∧ containsName p2 m = true) ∧
  (∀ n, exposedIn p2 n ↔ (exposedIn p n ∨ (expose = true ∧ resolveName env spec = some n)))

/-- The contract established by one successful collectNoOverwrite call:
planned names stay planned, the dependency-before-dependent order is
preserved, and the visited specification resolves to a planned name. -/
def StrictPost (env : Env) (spec : Spec) (p p2 : List PlanEntry) : Prop :=
  (∀ n, containsName p n = true → containsName p2 n = true) ∧
  (DepClosed env p → DepClosed env p2) ∧
  (∃ m, resolveName env spec = some m ∧ containsName p2 m = true)

theorem containsName_iff (p : List PlanEntry) (n : String) :
    containsName p n = true ↔ ∃ e ∈ p, e.name = n := by
  simp [containsName, List.any_eq_true]

theorem containsName_of_exposedIn {p : List PlanEntry} {n : String}
    (h : exposedIn p n) : containsName p n = true := by
  rcases h with ⟨e, he, hn, _⟩
  exact (containsName_iff p n).mpr ⟨e, he, hn⟩

theorem names_markExposed (p : List PlanEntry) (nm : String) :
    (markExposed p nm).map (fun e => e.name) = p.map (fun e => e.name) := by
  induction p with
  | nil => rfl
  | cons a l ih =>
    simp only [markExposed, List.map_cons] at ih ⊢
    rw [ih]
    by_cases h : a.name = nm <;> simp [h]

theorem containsName_congr {p q : List PlanEntry}
    (h : p.map (fun e => e.name) = q.map (fun e => e.name)) (n : String) :
    containsName p n = containsName q n := by
  have key : containsName p n = true ↔ containsName q n = true := by
    rw [containsName_iff, containsName_iff]
    constructor
    · rintro ⟨e, he, hn⟩
      have hmem : n ∈ q.map (fun e => e.name) := by
        rw [← h]
        exact List.mem_map.mpr ⟨e, he, hn⟩
      rcases List.mem_map.mp hmem with ⟨e2, he2, hn2⟩
      exact ⟨e2, he2, hn2⟩
    · rintro ⟨e, he, hn⟩
      have hmem : n ∈ p.map (fun e => e.name) := by
        rw [h]
        exact List.mem_map.mpr ⟨e, he, hn⟩
      rcases List.mem_map.mp hmem with ⟨e2, he2, hn2⟩
      exact ⟨e2, he2, hn2⟩
  cases hq : containsName q n
  · cases hp : containsName p n
    · rfl
    · exact absurd (key.mp hp) (by simp [hq])
  · exact key.mpr hq

theorem containsName_markExposed (p : List PlanEntry) (nm n : String) :
    containsName (markExposed p nm) n = containsName p n :=
  containsName_congr (names_markExposed p nm) n

theorem nodupNames_congr {p q : List PlanEntry}
    (h : p.map (fun e => e.name) = q.map (fun e => e.name)) :
    nodupNames p ↔ nodupNames q := by
  unfold nodupNames
  rw [h]

theorem exposedIn_markExposed (p : List PlanEntry) (nm : String)
    (hc : containsName p nm = true) (n : String) :
    exposedIn (markExposed p nm) n ↔ (exposedIn p n ∨ n = nm) := by
  constructor
  · rintro ⟨e2, he2, hname, hexp⟩
    rcases List.mem_map.mp he2 with ⟨e, he, heq⟩
    by_cases h : e.name = nm
    · right
      rw [← hname, ← heq]
      simp [h]
    · left
      rw [if_neg h] at heq
      exact ⟨e, he, by rw [heq]; exact hname, by rw [heq]; exact hexp⟩
  · rintro (⟨e, he, hname, hexp⟩ | rfl)
    · refine ⟨if e.name = nm then { e with expose := true } else e,
        List.mem_map.mpr ⟨e, he, rfl⟩, ?_, ?_⟩
      · by_cases h : e.name = nm
        · rw [if_pos h]
          exact hname
        · rw [if_neg h]
          exact hname
      · by_cases h : e.name = nm
        · rw [if_pos h]
        · rw [if_neg h]
          exact hexp
    · rcases (containsName_iff p n).mp hc with ⟨e, he, hname⟩
      exact ⟨{ e with expose := true }, List.mem_map.mpr ⟨e, he, by rw [if_pos hname]⟩,
        hname, rfl⟩

theorem names_map_replace (p : List PlanEntry) (e : PlanEntry) :
    (p.map (fun x => if x.name = e.name then e else x)).map (fun x => x.name) =
      p.map (fun x => x.name) := by
  induction p with
  | nil => rfl
  | cons a l ih =>
    simp only [List.map_cons, ih]
    by_cases h : a.name = e.name
    · rw [if_pos h, h]
    · rw [if_neg h]

theorem names_planSet_of_contains (p : List PlanEntry) (e : PlanEntry)
    (hc : containsName p e.name = true) :
    (planSet p e).map (fun x => x.name) = p.map (fun x => x.name) := by
  unfold planSet
  rw [if_pos hc]
  exact names_map_replace p e

theorem planSet_of_not_contains (p : List PlanEntry) (e : PlanEntry)
    (hc : containsName p e.name = false) :
    planSet p e = p ++ [e] := by
  unfold planSet
  rw [if_neg (by simp [hc])]

theorem containsName_planSet (p : List PlanEntry) (e : PlanEntry) (n : String) :
    containsName (planSet p e) n = (containsName p n || decide (e.name = n)) := by
  by_cases hc : containsName p e.name = true
  · rw [containsName_congr (names_planSet_of_contains p e hc) n]
    by_cases h : e.name = n
    · rw [← h] at *
      simp [hc]
    · simp [h]
  · rw [planSet_of_not_contains p e (by simpa using hc)]
    simp [containsName, List.any_append]

theorem nodupNames_planSet (p : List PlanEntry) (e : PlanEntry)
    (hn : nodupNames p) : nodupNames (planSet p e) := by
  by_cases hc : containsName p e.name = true
  · exact (nodupNames_congr (names_planSet_of_contains p e hc)).mpr hn
  · rw [planSet_of_not_contains p e (by simpa using hc)]
    unfold nodupNames at hn ⊢
    simp only [List.map_append, List.map_cons, List.map_nil]
    rw [List.nodup_append]
    refine ⟨hn, List.nodup_singleton _, ?_⟩
    intro a ha hb
    simp only [List.mem_singleton] at hb
    subst hb
    rcases List.mem_map.mp ha with ⟨x, hx, hxe⟩
    exact absurd ((containsName_iff p e.name).mpr ⟨x, hx, hxe⟩) (by simpa using hc)

theorem exposedIn_planSet (p : List PlanEntry) (e : PlanEntry)
    (hne : ¬ exposedIn p e.name) (n : String) :
    exposedIn (planSet p e) n ↔ (exposedIn p n ∨ (n = e.name ∧ e.expose = true)) := by
  by_cases hc : containsName p e.name = true
  · unfold planSet
    rw [if_pos (by simpa [containsName] using hc)]
    constructor
    · rintro ⟨e2, he2, hname, hexp⟩
      rcases List.mem_map.mp he2 with ⟨x, hx, hxe⟩
      by_cases h : x.name = e.name
      · rw [if_pos h] at hxe
        right
        rw [← hname, ← hxe]
        exact ⟨rfl, by rw [hxe]; exact hexp⟩
      · rw [if_neg h] at hxe
        exact Or.inl ⟨x, hx, by rw [hxe]; exact hname, by rw [hxe]; exact hexp⟩
    · rintro (⟨x, hx, hname, hexp⟩ | ⟨rfl, hexp⟩)
      · by_cases h : x.name = e.name
        · exact absurd ⟨x, hx, h, hexp⟩ hne
        · exact ⟨x, List.mem_map.mpr ⟨x, hx, by rw [if_neg h]⟩, hname, hexp⟩
      · rcases (containsName_iff p e.name).mp hc with ⟨x, hx, hxe⟩
        exact ⟨e, List.mem_map.mpr ⟨x, hx, by rw [if_pos hxe]⟩, rfl, hexp⟩
  · rw [planSet_of_not_contains p e (by simpa using hc)]
    unfold exposedIn
    simp only [List.mem_append, List.mem_singleton]
    constructor
    · rintro ⟨e2, he2 | rfl, hname, hexp⟩
      · exact Or.inl ⟨e2, he2, hname, hexp⟩
      · exact Or.inr ⟨hname.symm, hexp⟩
    · rintro (⟨e2, he2, hname, hexp⟩ | ⟨rfl, hexp⟩)
      · exact ⟨e2, Or.inl he2, hname, hexp⟩
      · exact ⟨e, Or.inr rfl, rfl, hexp⟩

theorem collectList_post (env : Env) (f : Spec → List PlanEntry → CollectResult)
    (hf : ∀ d p p2, f d p = .ok p2 → CollectPost env d false p p2) :
    ∀ (deps : List Spec) (p p2 : List PlanEntry), collectList f deps p = .ok p2 →
      (∀ n, containsName p n = true → containsName p2 n = true) ∧
      (nodupNames p → nodupNames p2) ∧
      (∀ d ∈ deps, ∃ m, resolveName env d = some m ∧ containsName p2 m = true) ∧
      (∀ n, exposedIn p2 n ↔ exposedIn p n) := by
  intro deps
  induction deps with
  | nil =>
    intro p p2 h
    simp only [collectList] at h
    cases h
    exact ⟨fun n hn => hn, id, by simp, fun n => Iff.rfl⟩
  | cons d rest ih =>
    intro p p2 h
    simp only [collectList] at h
    cases hd : f d p with
    | ok p1 =>
      rw [hd] at h
      have post1 := hf d p p1 hd
      have post2 := ih p1 p2 h
      refine ⟨fun n hn => post2.1 n (post1.1 n hn), fun hn => post2.2.1 (post1.2.1 hn), ?_, ?_⟩
      · intro d2 hd2
        rcases List.mem_cons.mp hd2 with rfl | hmem
        · rcases post1.2.2.1 with ⟨m, hm, hcont⟩
          exact ⟨m, hm, post2.1 m hcont⟩
        · exact post2.2.2.1 d2 hmem
      · intro n
        rw [post2.2.2.2 n]
        have := post1.2.2.2 n
        simpa using this
    | error => rw [hd] at h; cases h
    | diverge => rw [hd] at h; cases h

theorem collect_post (env : Env) :
    ∀ (fuel : Nat) (spec : Spec) (expose : Bool) (p p2 : List PlanEntry),
      collectDependencies env fuel spec expose p = .ok p2 →
      CollectPost env spec expose p p2 := by
  intro fuel
  induction fuel with
  | zero =>
    intro spec expose p p2 h
    exact absurd h (by simp [collectDependencies])
  | succ n ih =>
    intro spec expose p p2 h
    simp only [collectDependencies] at h
    split at h
    · cases h
    · rename_i name hres
      by_cases hc : containsName p name = true
      · rw [if_pos hc] at h
        cases expose with
        | true =>
          rw [if_pos rfl] at h
          cases h
          refine ⟨fun n2 hn => ?_, fun hn => ?_, ⟨name, hres, ?_⟩, fun n2 => ?_⟩
          · simpa [containsName_markExposed] using hn
          · exact (nodupNames_congr (names_markExposed p name)).mpr hn
          · simpa [containsName_markExposed] using hc
          · rw [exposedIn_markExposed p name hc n2]
            constructor
            · rintro (hexp | rfl)
              · exact Or.inl hexp
              · exact Or.inr ⟨rfl, hres⟩
            · rintro (hexp | ⟨-, hsome⟩)
              · exact Or.inl hexp
              · rw [hres] at hsome
                cases hsome
                exact Or.inr rfl
        | false =>
          rw [if_neg (by simp)] at h
          cases h
          refine ⟨fun n2 hn => hn, id, ⟨name, hres, hc⟩, fun n2 => by simp⟩
      · rw [if_neg hc] at h
        split at h
        · cases h
        · rename_i cd hcd
          cases hlist : collectList (fun d p => collectDependencies env n d false p)
              cd.dependencies p with
          | ok p1 =>
            rw [hlist] at h
            cases h
            have lpost := collectList_post env _
              (fun d q q2 hq => ih d false q q2 hq) cd.dependencies p p1 hlist
            have hnotexp : ¬ exposedIn p1 name := by
              intro hexp
              have h2 := (lpost.2.2.2 name).mp hexp
              exact hc (containsName_of_exposedIn h2)
            refine ⟨fun n2 hn => ?_, fun hn => ?_, ⟨name, hres, ?_⟩, fun n2 => ?_⟩
            · rw [containsName_planSet]
              simp [lpost.1 n2 hn]
            · exact nodupNames_planSet p1 _ (lpost.2.1 hn)
            · rw [containsName_planSet]
              simp
            · rw [exposedIn_planSet p1 _ hnotexp n2, lpost.2.2.2 n2]
              constructor
              · rintro (hexp | ⟨rfl, hexp⟩)
                · exact Or.inl hexp
                · exact Or.inr ⟨hexp, hres⟩
              · rintro (hexp | ⟨hexp, hsome⟩)
                · exact Or.inl hexp
                · rw [hres] at hsome
                  cases hsome
                  exact Or.inr ⟨rfl, hexp⟩
          | error => rw [hlist] at h; cases h
          | diverge => rw [hlist] at h; cases h

theorem buildLoop_post (env : Env) (fuel : Nat) :
    ∀ (specs : List Spec) (p p2 : List PlanEntry), buildLoop env fuel specs p = .ok p2 →
      (nodupNames p → nodupNames p2) ∧
      (∀ n, exposedIn p2 n ↔ (exposedIn p n ∨ ∃ s ∈ specs, resolveName env s = some n)) := by
  intro specs
  induction specs with
  | nil =>
    intro p p2 h
    simp only [buildLoop] at h
    cases h
    exact ⟨id, fun n => by simp⟩
  | cons s rest ih =>
    intro p p2 h
    simp only [buildLoop] at h
    cases hs : collectDependencies env fuel s true p with
    | ok p1 =>
      rw [hs] at h
      have post1 := collect_post env fuel s true p p1 hs
      have post2 := ih p1 p2 h
      refine ⟨fun hn => post2.1 (post1.2.1 hn), fun n => ?_⟩
      rw [post2.2 n, post1.2.2.2 n]
      simp only [List.mem_cons, true_and]
      constructor
      · rintro ((hexp | hres) | ⟨s2, hmem, hres⟩)
        · exact Or.inl hexp
        · exact Or.inr ⟨s, Or.inl rfl, hres⟩
        · exact Or.inr ⟨s2, Or.inr hmem, hres⟩
      · rintro (hexp | ⟨s2, rfl | hmem, hres⟩)
        · exact Or.inl (Or.inl hexp)
        · exact Or.inl (Or.inr hres)
        · exact Or.inr ⟨s2, hmem, hres⟩
    | error => rw [hs] at h; cases h
    | diverge => rw [hs] at h; cases h

theorem containsName_append_one (p : List PlanEntry) (e : PlanEntry) (n : String) :
    containsName (p ++ [e]) n = (containsName p n || decide (e.name = n)) := by
  simp [containsName, List.any_append]

theorem depClosed_nil (env : Env) : DepClosed env [] := by
  intro j e hj
  simp at hj

theorem depClosed_markExposed (env : Env) (p : List PlanEntry) (nm : String)
    (h : DepClosed env p) : DepClosed env (markExposed p nm) := by
  intro j e hj cd hcd d hd
  rw [markExposed, List.get?_map] at hj
  cases hp : p.get? j with
  | none => rw [hp] at hj; cases hj
  | some e0 =>
    rw [hp] at hj
    cases hj
    have hct : (if e0.name = nm then { e0 with expose := true } else e0).ctorId = e0.ctorId := by
      by_cases hh : e0.name = nm
      · rw [if_pos hh]
      · rw [if_neg hh]
    rw [hct] at hcd
    rcases h j e0 hp cd hcd d hd with ⟨m, hm, i, hi, e2, hgi, hname⟩
    refine ⟨m, hm, i, hi,
      (if e2.name = nm then { e2 with expose := true } else e2), ?_, ?_⟩
    · rw [markExposed, List.get?_map, hgi]
      rfl
    · by_cases hh : e2.name = nm
      · rw [if_pos hh]
        exact hname
      · rw [if_neg hh]
        exact hname

theorem depClosed_append (env : Env) (p : List PlanEntry) (e : PlanEntry)
    (h : DepClosed env p)
    (hdeps : ∀ cd, env.get? e.ctorId = some cd → ∀ d ∈ cd.dependencies,
      ∃ m, resolveName env d = some m ∧ containsName p m = true) :
    DepClosed env (p ++ [e]) := by
  intro j e2 hj cd hcd d hd
  by_cases hlt : j < p.length
  · rw [List.get?_append hlt] at hj
    rcases h j e2 hj cd hcd d hd with ⟨m, hm, i, hi, e3, hgi, hname⟩
    have hilt : i < p.length := by
      rcases List.get?_eq_some.mp hgi with ⟨hl, -⟩
      exact hl
    exact ⟨m, hm, i, hi, e3, by rw [List.get?_append hilt]; exact hgi, hname⟩
  · have hj2 := hj
    rw [List.get?_append_right (Nat.le_of_not_lt hlt)] at hj2
    cases hsub : j - p.length with
    | zero =>
      rw [hsub] at hj2
      cases hj2
      rcases hdeps cd hcd d hd with ⟨m, hm, hcont⟩
      rcases (containsName_iff p m).mp hcont with ⟨e3, he3, hname⟩
      rcases List.get?_of_mem he3 with ⟨i, hgi⟩
      have hilt : i < p.length := by
        rcases List.get?_eq_some.mp hgi with ⟨hl, -⟩
        exact hl
      refine ⟨m, hm, i, lt_of_lt_of_le hilt (Nat.le_of_not_lt hlt), e3, ?_, hname⟩
      rw [List.get?_append hilt]
      exact hgi
    | succ k =>
      rw [hsub] at hj2
      simp at hj2

theorem collectList_strictPost (env : Env) (f : Spec → List PlanEntry → CollectResult)
    (hf : ∀ d p p2, f d p = .ok p2 → StrictPost env d p p2) :
    ∀ (deps : List Spec) (p p2 : List PlanEntry), collectList f deps p = .ok p2 →
      (∀ n, containsName p n = true → containsName p2 n = true) ∧
      (DepClosed env p → DepClosed env p2) ∧
      (∀ d ∈ deps, ∃ m, resolveName env d = some m ∧ containsName p2 m = true) := by
  intro deps
  induction deps with
  | nil =>
    intro p p2 h
    simp only [collectList] at h
    cases h
    exact ⟨fun n hn => hn, id, by simp⟩
  | cons d rest ih =>
    intro p p2 h
    simp only [collectList] at h
    cases hd : f d p with
    | ok p1 =>
      rw [hd] at h
      have post1 := hf d p p1 hd
      have post2 := ih p1 p2 h
      refine ⟨fun n hn => post2.1 n (post1.1 n hn), fun hdc => post2.2.1 (post1.2.1 hdc), ?_⟩
      intro d2 hd2
      rcases List.mem_cons.mp hd2 with rfl | hmem
      · rcases post1.2.2 with ⟨m, hm, hcont⟩
        exact ⟨m, hm, post2.1 m hcont⟩
      · exact post2.2.2 d2 hmem
    | error => rw [hd] at h; cases h
    | diverge => rw [hd] at h; cases h

theorem collectNoOverwrite_post (env : Env) :
    ∀ (fuel : Nat) (spec : Spec) (expose : Bool) (p p2 : List PlanEntry),
      collectNoOverwrite env fuel spec expose p = .ok p2 →
      StrictPost env spec p p2 := by
  intro fuel
  induction fuel with
  | zero =>
    intro spec expose p p2 h
    exact absurd h (by simp [collectNoOverwrite])
  | succ n ih =>
    intro spec expose p p2 h
    simp only [collectNoOverwrite] at h
    split at h
    · cases h
    · rename_i name hres
      by_cases hc : containsName p name = true
      · rw [if_pos hc] at h
        cases expose with
        | true =>
          rw [if_pos rfl] at h
          cases h
          refine ⟨fun n2 hn => ?_, depClosed_markExposed env p name, ⟨name, hres, ?_⟩⟩
          · simpa [containsName_markExposed] using hn
          · simpa [containsName_markExposed] using hc
        | false =>
          rw [if_neg (by simp)] at h
          cases h
          exact ⟨fun n2 hn => hn, id, ⟨name, hres, hc⟩⟩
      · rw [if_neg hc] at h
        split at h
        · cases h
        · rename_i cd hcd
          cases hlist : collectList (fun d p => collectNoOverwrite env n d false p)
              cd.dependencies p with
          | ok p1 =>
            rw [hlist] at h
            replace h : (if containsName p1 name = true then CollectResult.error
                else CollectResult.ok
                  (p1 ++ [{ name := name, ctorId := spec.idOf, expose := expose }])) =
                CollectResult.ok p2 := h
            by_cases hc2 : containsName p1 name = true
            · rw [if_pos hc2] at h
              cases h
            · rw [if_neg hc2] at h
              cases h
              have lpost := collectList_strictPost env _
                (fun d q q2 hq => ih d false q q2 hq) cd.dependencies p p1 hlist
              refine ⟨fun n2 hn => ?_, fun hdc => ?_, ⟨name, hres, ?_⟩⟩
              · rw [containsName_append_one]
                simp [lpost.1 n2 hn]
              · refine depClosed_append env p1 _ (lpost.2.1 hdc) ?_
                intro cd2 hcd2 d hd
                have hcdeq : cd2 = cd := by
                  rw [hcd] at hcd2
                  cases hcd2
                  rfl
                subst hcdeq
                exact lpost.2.2 d hd
              · rw [containsName_append_one]
                simp
          | error => rw [hlist] at h; cases h
          | diverge => rw [hlist] at h; cases h

theorem collectList_agrees (f g : Spec → List PlanEntry → CollectResult)
    (hfg : ∀ d p p2, f d p = .ok p2 → g d p = .ok p2) :
    ∀ (deps : List Spec) (p p2 : List PlanEntry),
      collectList f deps p = .ok p2 → collectList g deps p = .ok p2 := by
  intro deps
  induction deps with
  | nil => intro p p2 h; exact h
  | cons d rest ih =>
    intro p p2 h
    simp only [collectList] at h ⊢
    cases hd : f d p with
    | ok p1 =>
      rw [hd] at h
      rw [hfg d p p1 hd]
      exact ih p1 p2 h
    | error => rw [hd] at h; cases h
    | diverge => rw [hd] at h; cases h

theorem collectNoOverwrite_agrees (env : Env) :
    ∀ (fuel : Nat) (spec : Spec) (expose : Bool) (p p2 : List PlanEntry),
      collectNoOverwrite env fuel spec expose p = .ok p2 →
      collectDependencies env fuel spec expose p = .ok p2 := by
  intro fuel
  induction fuel with
  | zero =>
    intro spec expose p p2 h
    exact absurd h (by simp [collectNoOverwrite])
  | succ n ih =>
    intro spec expose p p2 h
    simp only [collectNoOverwrite] at h
    simp only [collectDependencies]
    split at h
    · cases h
    · rename_i name hres
      by_cases hc : containsName p name = true
      · rw [if_pos hc] at h
        rw [if_pos hc]
        exact h
      · rw [if_neg hc] at h
        rw [if_neg hc]
        split at h
        · cases h
        · rename_i cd hcd
          cases hlist : collectList (fun d p => collectNoOverwrite env n d false p)
              cd.dependencies p with
          | ok p1 =>
            rw [hlist] at h
            replace h : (if containsName p1 name = true then CollectResult.error
                else CollectResult.ok
                  (p1 ++ [{ name := name, ctorId := spec.idOf, expose := expose }])) =
                CollectResult.ok p2 := h
            by_cases hc2 : containsName p1 name = true
            · rw [if_pos hc2] at h
              cases h
            · rw [if_neg hc2] at h
              cases h
              have hlist2 := collectList_agrees _ _
                (fun d q q2 hq => ih d false q q2 hq) cd.dependencies p p1 hlist
              rw [hlist2]
              show CollectResult.ok
                  (planSet p1 { name := name, ctorId := spec.idOf, expose := expose }) =
                CollectResult.ok
                  (p1 ++ [{ name := name, ctorId := spec.idOf, expose := expose }])
              rw [planSet_of_not_contains p1 _ (by simpa using hc2)]
          | error => rw [hlist] at h; cases h
          | diverge => rw [hlist] at h; cases h

theorem buildLoopNoOverwrite_post (env : Env) (fuel : Nat) :
    ∀ (specs : List Spec) (p p2 : List PlanEntry),
      buildLoopNoOverwrite env fuel specs p = .ok p2 →
      (DepClosed env p → DepClosed env p2) ∧ buildLoop env fuel specs p = .ok p2 := by
  intro specs
  induction specs with
  | nil =>
    intro p p2 h
    simp only [buildLoopNoOverwrite] at h
    cases h
    exact ⟨id, rfl⟩
  | cons s rest ih =>
    intro p p2 h
    simp only [buildLoopNoOverwrite] at h
    simp only [buildLoop]
    cases hs : collectNoOverwrite env fuel s true p with
    | ok p1 =>
      rw [hs] at h
      have post1 := collectNoOverwrite_post env fuel s true p p1 hs
      have post2 := ih p1 p2 h
      rw [collectNoOverwrite_agrees env fuel s true p p1 hs]
      exact ⟨fun hdc => post2.1 (post1.2.1 hdc), post2.2⟩
    | error => rw [hs] at h; cases h
    | diverge => rw [hs] at h; cases h

/-- C1 (amended): whenever the overwrite-free run of the plan builder
succeeds, the plain buildFeaturePlan returns the very same plan and that
plan is dependency ordered: for every plan entry whose constructor
declares a dependency d, the resolved name of d occurs at a strictly
earlier plan position. The overwrite-free hypothesis excludes exactly the
runs in which a plugin shares its resolved name with a plugin inserted
while its own dependency subtree was being visited; on such runs Map.set
overwrites that earlier entry in place and the ordering fails (see the
counterexample). -/
theorem buildFeaturePlan_dependency_first (env : Env) (fuel : Nat)
    (specs : List Spec) (plan : List PlanEntry)
    (hb : buildFeaturePlanNoOverwrite env fuel specs = .ok plan)
    (j : Nat) (e : PlanEntry) (hj : plan.get? j = some e)
    (cd : CtorData) (hcd : env.get? e.ctorId = some cd)
    (d : Spec) (hd : d ∈ cd.dependencies)
    (nd : String) (hnd : resolveName env d = some nd) :
    buildFeaturePlan env fuel specs = .ok plan ∧
    ∃ i, i < j ∧ ∃ e2, plan.get? i = some e2 ∧ e2.name = nd := by
  have post := buildLoopNoOverwrite_post env fuel specs [] plan hb
  have hdc : DepClosed env plan := post.1 (depClosed_nil env)
  rcases hdc j e hj cd hcd d hd with ⟨m, hm, i, hi, e2, hgi, hname⟩
  rw [hnd] at hm
  cases hm
  exact ⟨post.2, i, hi, e2, hgi, hname⟩

/-- Witness for C1 at a two-plugin environment: plugin p (constructor 0)
declares plugin d (constructor 1) as dependency; the plan lists d strictly
before p. -/
theorem buildFeaturePlan_dependency_first_witness :
    buildFeaturePlan
        [({ featureName := some "p", dependencies := [Spec.ctorSpec 1] } : CtorData),
         ({ featureName := some "d", dependencies := [] } : CtorData)] 3 [Spec.ctorSpec 0] =
      .ok [({ name := "d", ctorId := 1, expose := false } : PlanEntry),
           ({ name := "p", ctorId := 0, expose := true } : PlanEntry)] ∧
    ∃ i, i < 1 ∧ ∃ e2,
      ([({ name := "d", ctorId := 1, expose := false } : PlanEntry),
        ({ name := "p", ctorId := 0, expose := true } : PlanEntry)]).get? i = some e2 ∧
      e2.name = "d" :=
  buildFeaturePlan_dependency_first
    [({ featureName := some "p", dependencies := [Spec.ctorSpec 1] } : CtorData),
     ({ featureName := some "d", dependencies := [] } : CtorData)] 3 [Spec.ctorSpec 0]
    [({ name := "d", ctorId := 1, expose := false } : PlanEntry),
     ({ name := "p", ctorId := 0, expose := true } : PlanEntry)]
    (by decide) 1 { name := "p", ctorId := 0, expose := true } (by decide)
    { featureName := some "p", dependencies := [Spec.ctorSpec 1] } (by decide)
    (Spec.ctorSpec 1) (by decide) "d" (by decide)

/-- Counterexample for C1 as literally stated: plugin P (constructor 0,
name x) declares dependency D (constructor 1) whose resolved name is also
x. The dependency entry is first inserted, then Map.set overwrites it in
place with the entry of P, so the final plan is the single entry of P at
position 0; no entry for D exists at any strictly earlier position. -/
theorem buildFeaturePlan_dependency_first_counterexample :
    buildFeaturePlan
        [({ featureName := some "x", dependencies := [Spec.ctorSpec 1] } : CtorData),
         ({ featureName := some "x", dependencies := [] } : CtorData)] 3 [Spec.ctorSpec 0] =
      .ok [({ name := "x", ctorId := 0, expose := true } : PlanEntry)] ∧
    resolveName
        [({ featureName := some "x", dependencies := [Spec.ctorSpec 1] } : CtorData),
         ({ featureName := some "x", dependencies := [] } : CtorData)]
        (Spec.ctorSpec 1) = some "x" ∧
    ¬ ∃ i, i < 0 ∧ ∃ e2,
        ([({ name := "x", ctorId := 0, expose := true } : PlanEntry)]).get? i = some e2 ∧
        e2.name = "x" := by
  refine ⟨by decide, by decide, ?_⟩
  rintro ⟨i, hi, -⟩
  exact Nat.not_lt_zero i hi

/-- C2: on every successful run, buildFeaturePlan yields at most one plan
entry per resolved name (the plan names are pairwise distinct), and the
exposed flag of a name is the OR over all requests for it: it is set
exactly when some top-level specification resolves to that name, while
dependency-only visits (which always request expose false) never set it. -/
theorem buildFeaturePlan_unique_names_expose_or (env : Env) (fuel : Nat)
    (specs : List Spec) (plan : List PlanEntry)
    (hb : buildFeaturePlan env fuel specs = .ok plan) :
    nodupNames plan ∧
    ∀ n, exposedIn plan n ↔ ∃ s ∈ specs, resolveName env s = some n := by
  have post := buildLoop_post env fuel specs [] plan hb
  refine ⟨post.1 (by simp [nodupNames]), fun n => ?_⟩
  have h := post.2 n
  simpa [exposedIn] using h

/-- Witness for C2: one constructor requested twice, once bare and once
under an explicit name override resolving to the same name, collapses to a
single exposed entry. -/
theorem buildFeaturePlan_unique_names_expose_or_witness :
    nodupNames [({ name := "f", ctorId := 0, expose := true } : PlanEntry)] ∧
    (exposedIn [({ name := "f", ctorId := 0, expose := true } : PlanEntry)] "f" ↔
      ∃ s ∈ [Spec.ctorSpec 0, Spec.request (some "f") 0],
        resolveName [({ featureName := some "f", dependencies := [] } : CtorData)] s =
          some "f") := by
  have h := buildFeaturePlan_unique_names_expose_or
    [({ featureName := some "f", dependencies := [] } : CtorData)] 2
    [Spec.ctorSpec 0, Spec.request (some "f") 0]
    [({ name := "f", ctorId := 0, expose := true } : PlanEntry)] (by decide)
  exact ⟨h.1, h.2 "f"⟩

theorem collectList_diverge_inv (f : Spec → List PlanEntry → CollectResult) :
    ∀ (deps : List Spec) (p : List PlanEntry),
      collectList f deps p = .diverge → ∃ d ∈ deps, ∃ q, f d q = .diverge := by
  intro deps
  induction deps with
  | nil => intro p h; cases h
  | cons d rest ih =>
    intro p h
    simp only [collectList] at h
    cases hd : f d p with
    | ok p1 =>
      rw [hd] at h
      rcases ih p1 h with ⟨d2, hmem, q, hq⟩
      exact ⟨d2, List.mem_cons_of_mem d hmem, q, hq⟩
    | error => rw [hd] at h; cases h
    | diverge => exact ⟨d, List.mem_cons_self d rest, p, hd⟩

theorem collect_no_diverge_of_ranked (env : Env) (rank : Nat → Nat)
    (hr : RankedDeps env rank) :
    ∀ (fuel : Nat) (spec : Spec) (expose : Bool) (p : List PlanEntry),
      rank spec.idOf < fuel →
      collectDependencies env fuel spec expose p ≠ .diverge := by
  intro fuel
  induction fuel with
  | zero =>
    intro spec expose p hlt
    exact absurd hlt (Nat.not_lt_zero _)
  | succ n ih =>
    intro spec expose p hlt h
    simp only [collectDependencies] at h
    split at h
    · cases h
    · rename_i name hres
      by_cases hc : containsName p name = true
      · rw [if_pos hc] at h
        cases h
      · rw [if_neg hc] at h
        split at h
        · cases h
        · rename_i cd hcd
          cases hlist : collectList (fun d p => collectDependencies env n d false p)
              cd.dependencies p with
          | ok p1 => rw [hlist] at h; cases h
          | error => rw [hlist] at h; cases h
          | diverge =>
            rcases collectList_diverge_inv _ cd.dependencies p hlist with ⟨d, hdmem, q, hq⟩
            have hrank : rank d.idOf < rank spec.idOf := hr spec.idOf cd hcd d hdmem
            exact ih d false q (lt_of_lt_of_le hrank (Nat.lt_succ_iff.mp hlt)) hq

theorem buildLoop_no_diverge_of_ranked (env : Env) (rank : Nat → Nat)
    (hr : RankedDeps env rank) (fuel : Nat) :
    ∀ (specs : List Spec) (p : List PlanEntry), (∀ s ∈ specs, rank s.idOf < fuel) →
      buildLoop env fuel specs p ≠ .diverge := by
  intro specs
  induction specs with
  | nil => intro p hs h; cases h
  | cons s rest ih =>
    intro p hs h
    simp only [buildLoop] at h
    cases hcol : collectDependencies env fuel s true p with
    | ok p1 =>
      rw [hcol] at h
      exact ih p1 (fun s2 hmem => hs s2 (List.mem_cons_of_mem s hmem)) h
    | error => rw [hcol] at h; cases h
    | diverge =>
      exact collect_no_diverge_of_ranked env rank hr fuel s true p
        (hs s (List.mem_cons_self s rest)) hcol

/-- C8 (amended): buildFeaturePlan terminates (returns or throws, for any
fuel budget exceeding the dependency ranks) on every specification list
whose static dependency declarations are well founded. A genuinely
circular declaration is NOT tolerated: the map guard takes effect only
after an entry is inserted, and insertion happens after the dependencies
are visited, so a dependency cycle recurses without bound (stack
overflow) instead of resolving to first writer wins - see the
counterexample. -/
theorem buildFeaturePlan_terminates_of_ranked (env : Env) (rank : Nat → Nat)
    (fuel : Nat) (specs : List Spec)
    (hr : RankedDeps env rank) (hf : ∀ s ∈ specs, rank s.idOf < fuel) :
    buildFeaturePlan env fuel specs ≠ .diverge :=
  buildLoop_no_diverge_of_ranked env rank hr fuel specs [] hf

/-- Witness for the amended C8 on a one-plugin environment without
dependencies: one unit of fuel already suffices. -/
theorem buildFeaturePlan_terminates_of_ranked_witness :
    buildFeaturePlan [({ featureName := some "a", dependencies := [] } : CtorData)] 1
      [Spec.ctorSpec 0] ≠ .diverge :=
  buildFeaturePlan_terminates_of_ranked
    [({ featureName := some "a", dependencies := [] } : CtorData)] (fun _ => 0) 1
    [Spec.ctorSpec 0]
    (by
      intro id cd hcd d hd
      cases id with
      | zero =>
        rw [show ([({ featureName := some "a", dependencies := [] } : CtorData)]).get? 0 =
            some { featureName := some "a", dependencies := [] } from rfl] at hcd
        cases hcd
        simp at hd
      | succ k =>
        rw [show ([({ featureName := some "a", dependencies := [] } : CtorData)]).get? (k + 1) =
            none from rfl] at hcd
        cases hcd)
    (by
      intro s hs
      rcases List.mem_singleton.mp hs with rfl
      exact Nat.zero_lt_one)

/-- Counterexample for C8 as literally stated: a plugin whose constructor
declares itself as dependency makes collectDependencies recurse without
bound; buildFeaturePlan exhausts every fuel budget instead of resolving
the cycle to first writer wins. -/
theorem buildFeaturePlan_terminates_counterexample :
    buildDiverges [({ featureName := some "a", dependencies := [Spec.ctorSpec 0] } : CtorData)]
      [Spec.ctorSpec 0] := by
  have key : ∀ fuel e,
      collectDependencies
        [({ featureName := some "a", dependencies := [Spec.ctorSpec 0] } : CtorData)]
        fuel (Spec.ctorSpec 0) e [] = .diverge := by
    intro fuel
    induction fuel with
    | zero => intro e; rfl
    | succ n ih =>
      intro e
      have ih2 := ih false
      simp [collectDependencies, resolveName, goodName, collectList, Spec.idOf,
        containsName, ih2]
  intro fuel
  simp only [buildFeaturePlan, buildLoop, key]

end FeaturePlan

namespace LayoutCore

theorem bcastCleanupGo_trace (hook : FeatModel → Option (Option Nat)) (mk : Nat → Ev) :
    ∀ (l : List (Nat × FeatModel)) (cl : List Nat),
      (bcastCleanupGo hook mk l cl).2 =
        l.filterMap (fun p => if (hook p.2).isSome then some (mk p.1) else none) := by
  intro l
  induction l with
  | nil => intro cl; rfl
  | cons p rest ih =>
    intro cl
    cases hp : hook p.2 with
    | none =>
      simp only [bcastCleanupGo, hp, List.filterMap_cons]
      simp [ih]
    | some c =>
      simp only [bcastCleanupGo, hp, List.filterMap_cons]
      simp [ih]

theorem bcastCleanup_trace (feats : List FeatModel) (hook : FeatModel → Option (Option Nat))
    (mk : Nat → Ev) (cl : List Nat) :
    (bcastCleanup feats hook mk cl).2 = bcast feats (fun f => (hook f).isSome) mk := by
  rw [bcastCleanup, bcastCleanupGo_trace]
  rfl

theorem mem_bcast {feats : List FeatModel} {hasHook : FeatModel → Bool} {mk : Nat → Ev}
    {e : Ev} (h : e ∈ bcast feats hasHook mk) : ∃ i, e = mk i := by
  rcases List.mem_filterMap.mp h with ⟨p, -, hp⟩
  by_cases hh : hasHook p.2 = true
  · rw [if_pos hh] at hp
    exact ⟨p.1, (Option.some.inj hp).symm⟩
  · rw [if_neg hh] at hp
    cases hp

theorem mem_enumFrom_snd {α : Type} :
    ∀ (l : List α) (n : Nat) (p : Nat × α), p ∈ l.enumFrom n → p.2 ∈ l := by
  intro l
  induction l with
  | nil =>
    intro n p h
    cases h
  | cons a rest ih =>
    intro n p h
    rcases List.mem_cons.mp h with rfl | hmem
    · exact List.mem_cons_self a rest
    · exact List.mem_cons_of_mem a (ih (n + 1) p hmem)

theorem runAfterRenderGo_id :
    ∀ (l : List (Nat × FeatModel)) (v : RenderValue),
      (∀ p ∈ l, p.2.afterRender = none) → runAfterRenderGo l v = (v, []) := by
  intro l
  induction l with
  | nil => intro v _; rfl
  | cons p rest ih =>
    intro v h
    have hp := h p (List.mem_cons_self p rest)
    simp only [runAfterRenderGo, hp]
    exact ih v (fun q hq => h q (List.mem_cons_of_mem p hq))

theorem runAfterRender_id (feats : List FeatModel) (v : RenderValue)
    (h : ∀ f ∈ feats, f.afterRender = none) : runAfterRender feats v = (v, []) :=
  runAfterRenderGo_id feats.enum v (fun p hp => h p.2 (mem_enumFrom_snd feats 0 p hp))

/-- C3 (amended): destroy is close to idempotent. After a first destroy
(from any state, mounted or not), a second destroy leaves the state
unchanged and its whole trace is the unconditional beforeDestroy
broadcast to every plugin - so no cleanup runs, no DOM change, no subclass
hook and no other plugin hook occurs, but the beforeDestroy plugin hook is
re-invoked on every call, which is the one side effect the original claim
rules out (see counterexample). Calling destroy on a never mounted
component still flushes every registered cleanup callback. -/
theorem destroy_second_noop (M : LayoutModel) (s : LState) :
    (destroy M (destroy M s).1 =
      ((destroy M s).1, bcast M.feats (fun f => f.beforeDestroy) Ev.beforeDestroyB)) ∧
    (s.mounted = false → ∀ c ∈ s.cleanups, Ev.runCleanup c ∈ (destroy M s).2) := by
  constructor
  · by_cases h1 : s.mounted = true ∧ s.root.isSome = true
    · rw [show (destroy M s).1 = { s with mounted := false, cleanups := [], listeners := [] } by
        simp only [destroy, if_pos h1]]
      simp only [destroy]
      rw [if_neg (by rintro ⟨hm2, -⟩; cases hm2)]
      simp
    · rw [show (destroy M s).1 = { s with cleanups := [], listeners := [] } by
        simp only [destroy, if_neg h1]]
      simp only [destroy]
      rw [if_neg (by rintro ⟨hm2, hr2⟩; exact h1 ⟨hm2, hr2⟩)]
      simp
  · intro hm c hc
    have h1 : ¬ (s.mounted = true ∧ s.root.isSome = true) := by
      rintro ⟨hm2, -⟩
      rw [hm] at hm2
      cases hm2
    simp only [destroy, if_neg h1]
    simp only [List.mem_append, List.mem_map]
    exact Or.inl (Or.inr ⟨c, hc, rfl⟩)

/-- Witness for the amended C3: a never mounted component with one
registered cleanup flushes it on destroy, and a second destroy returns
the state unchanged with only the beforeDestroy broadcast as trace. -/
theorem destroy_second_noop_witness :
    s3.mounted = false ∧ Ev.runCleanup 7 ∈ (destroy Mw s3).2 ∧
    destroy Mw (destroy Mw s3).1 =
      ((destroy Mw s3).1, bcast Mw.feats (fun f => f.beforeDestroy) Ev.beforeDestroyB) := by
  have h := destroy_second_noop Mw s3
  exact ⟨rfl, h.2 rfl 7 (by decide), h.1⟩

/-- Counterexample for C3 as literally stated: for a component carrying a
plugin that defines beforeDestroy, the second destroy after a completed
mount and destroy cycle still invokes that plugin hook - the beforeDestroy
broadcast at the top of destroy is unconditional, so a second destroy is
not free of plugin hook invocations. -/
theorem destroy_second_noop_counterexample :
    c3s1.mounted = true ∧
    Ev.beforeDestroyB 0 ∈ (destroy M3 c3s2).2 := by decide

theorem mountTo_rooted (M : LayoutModel) (s : LState) (c : Nat)
    (hroot : s.root.isNone = false) :
    mountTo M s c =
      .ok ({ s with
            mounted := true,
            cleanups := (bcastCleanup M.feats (fun f => f.afterMounted) Ev.afterMountedB
              (bcastCleanup M.feats (fun f => f.onMounted) Ev.onMountedB s.cleanups).1).1 },
        (if s.mounted = true then [] else
          bcast M.feats (fun f => f.beforeMountRoot) Ev.beforeMountRootB ++
            (if M.hasBeforeMount then [Ev.beforeMountHook] else [])) ++
          [Ev.append c] ++
          (bcastCleanup M.feats (fun f => f.onMounted) Ev.onMountedB s.cleanups).2 ++
          (if M.hasAfterMount then [Ev.afterMountHook] else []) ++
          (bcastCleanup M.feats (fun f => f.afterMounted) Ev.afterMountedB
            (bcastCleanup M.feats (fun f => f.onMounted) Ev.onMountedB s.cleanups).1).2) := by
  simp only [mountTo]
  rw [if_neg (by simp [hroot])]
  rfl

/-- C5 (amended): a mountTo call on an already mounted component re-runs
exactly the append of the existing root into the new container, the
onMounted broadcast, the afterMount subclass hook, and the afterMounted
broadcast, in that order; the beforeMountRoot broadcast, the beforeMount
subclass hook and the whole render phase are all skipped. (The original
claim is refuted on two points, see the counterexample: the afterMount
subclass hook IS re-run on every repeated mount, and the before-mount
phase is guarded by the mounted flag rather than by a once-per-lifetime
latch, so it fires again when the component is destroyed and then mounted
again.) -/
theorem mountTo_remount (M : LayoutModel) (s : LState) (c : Nat)
    (hm : s.mounted = true) (hr : s.root.isSome = true) :
    mountTo M s c =
      .ok ({ s with
            mounted := true,
            cleanups := (bcastCleanup M.feats (fun f => f.afterMounted) Ev.afterMountedB
              (bcastCleanup M.feats (fun f => f.onMounted) Ev.onMountedB s.cleanups).1).1 },
        Ev.append c ::
          (bcast M.feats (fun f => (f.onMounted).isSome) Ev.onMountedB ++
            (if M.hasAfterMount then [Ev.afterMountHook] else []) ++
            bcast M.feats (fun f => (f.afterMounted).isSome) Ev.afterMountedB)) ∧
    (∀ i, Ev.beforeMountRootB i ∉ resTrace (mountTo M s c)) ∧
    Ev.beforeMountHook ∉ resTrace (mountTo M s c) ∧
    Ev.renderStructure ∉ resTrace (mountTo M s c) ∧
    (∀ i, Ev.beforeRenderB i ∉ resTrace (mountTo M s c)) ∧
    (∀ i, Ev.afterRenderB i ∉ resTrace (mountTo M s c)) ∧
    (∀ i, Ev.rootCreatedB i ∉ resTrace (mountTo M s c)) := by
  have hroot2 : s.root.isNone = false := by
    cases hroot : s.root with
    | none => rw [hroot] at hr; cases hr
    | some r => rfl
  have heq0 := mountTo_rooted M s c hroot2
  rw [if_pos hm, bcastCleanup_trace, bcastCleanup_trace] at heq0
  have heq : mountTo M s c =
      .ok ({ s with
            mounted := true,
            cleanups := (bcastCleanup M.feats (fun f => f.afterMounted) Ev.afterMountedB
              (bcastCleanup M.feats (fun f => f.onMounted) Ev.onMountedB s.cleanups).1).1 },
        Ev.append c ::
          (bcast M.feats (fun f => (f.onMounted).isSome) Ev.onMountedB ++
            (if M.hasAfterMount then [Ev.afterMountHook] else []) ++
            bcast M.feats (fun f => (f.afterMounted).isSome) Ev.afterMountedB)) := heq0
  have htr : resTrace (mountTo M s c) =
      Ev.append c ::
        (bcast M.feats (fun f => (f.onMounted).isSome) Ev.onMountedB ++
          (if M.hasAfterMount then [Ev.afterMountHook] else []) ++
          bcast M.feats (fun f => (f.afterMounted).isSome) Ev.afterMountedB) := by
    rw [heq]
    rfl
  have hshape : ∀ e, e ∈ resTrace (mountTo M s c) →
      e = Ev.append c ∨ (∃ j, e = Ev.onMountedB j) ∨ e = Ev.afterMountHook ∨
        ∃ j, e = Ev.afterMountedB j := by
    intro e hmem
    rw [htr] at hmem
    rcases List.mem_cons.mp hmem with rfl | h
    · exact Or.inl rfl
    · rcases List.mem_append.mp h with h | h
      · rcases List.mem_append.mp h with h | h
        · rcases mem_bcast h with ⟨j, hj⟩
          exact Or.inr (Or.inl ⟨j, hj⟩)
        · have he : e = Ev.afterMountHook := by
            revert h
            by_cases hA : M.hasAfterMount = true
            · rw [if_pos hA]
              intro h
              exact List.mem_singleton.mp h
            · rw [if_neg hA]
              intro h
              cases h
          exact Or.inr (Or.inr (Or.inl he))
      · rcases mem_bcast h with ⟨j, hj⟩
        exact Or.inr (Or.inr (Or.inr ⟨j, hj⟩))
  refine ⟨heq, ?_, ?_, ?_, ?_, ?_, ?_⟩
  · intro i hmem
    rcases hshape _ hmem with h | ⟨j, h⟩ | h | ⟨j, h⟩ <;> cases h
  · intro hmem
    rcases hshape _ hmem with h | ⟨j, h⟩ | h | ⟨j, h⟩ <;> cases h
  · intro hmem
    rcases hshape _ hmem with h | ⟨j, h⟩ | h | ⟨j, h⟩ <;> cases h
  · intro i hmem
    rcases hshape _ hmem with h | ⟨j, h⟩ | h | ⟨j, h⟩ <;> cases h
  · intro i hmem
    rcases hshape _ hmem with h | ⟨j, h⟩ | h | ⟨j, h⟩ <;> cases h
  · intro i hmem
    rcases hshape _ hmem with h | ⟨j, h⟩ | h | ⟨j, h⟩ <;> cases h

/-- Witness for the amended C5 on a mounted featureless component. -/
theorem mountTo_remount_witness :
    sw.mounted = true ∧ Ev.beforeMountHook ∉ resTrace (mountTo Mw sw 7) :=
  ⟨rfl, (mountTo_remount Mw sw 7 rfl rfl).2.2.1⟩

/-- Counterexample for C5 as literally stated: on a consecutive remount
the afterMount subclass hook fires again (so the remount does not re-run
only the append and the broadcasts), and the beforeMountRoot broadcast
fires both at the first mount and again at a mount following a destroy,
hence more than once over the lifetime of the instance. -/
theorem mountTo_remount_counterexample :
    Ev.afterMountHook ∈ resTrace (mountTo M5 c5s1 1) ∧
    Ev.beforeMountRootB 0 ∈ resTrace (mountTo M5 linit 0) ∧
    c5s2.mounted = false ∧
    Ev.beforeMountRootB 0 ∈ resTrace (mountTo M5 c5s2 2) := by decide

theorem ensureRoot_fresh (M : LayoutModel) :
    (∀ msg, resolveRoot (runAfterRender M.feats M.render).1 = .error msg →
      ensureRoot M linit = .error msg) ∧
    (∀ node, resolveRoot (runAfterRender M.feats M.render).1 = .ok node →
      ensureRoot M linit = .ok ({ linit with root := some node },
        bcast M.feats (fun f => f.beforeRender) Ev.beforeRenderB ++ [Ev.renderStructure] ++
          (runAfterRender M.feats M.render).2 ++
          bcast M.feats (fun f => f.onRootCreated) Ev.rootCreatedB)) := by
  constructor
  · intro msg hmsg
    simp only [ensureRoot]
    rw [hmsg]
  · intro node hok
    simp only [ensureRoot]
    rw [hok]

theorem mountTo_fresh_err (M : LayoutModel) (c : Nat) (msg : String)
    (hens : ensureRoot M linit = .error msg) :
    mountTo M linit c = .error msg := by
  simp only [mountTo]
  rw [if_pos (show linit.root.isNone = true from rfl), hens]

theorem mountTo_fresh_ok (M : LayoutModel) (c : Nat) (s1 : LState) (evs0 : List Ev)
    (hens : ensureRoot M linit = .ok (s1, evs0)) :
    mountTo M linit c =
      .ok ({ s1 with
            mounted := true,
            cleanups := (bcastCleanup M.feats (fun f => f.afterMounted) Ev.afterMountedB
              (bcastCleanup M.feats (fun f => f.onMounted) Ev.onMountedB s1.cleanups).1).1 },
        evs0 ++
          (if s1.mounted = true then [] else
            bcast M.feats (fun f => f.beforeMountRoot) Ev.beforeMountRootB ++
              (if M.hasBeforeMount then [Ev.beforeMountHook] else [])) ++
          [Ev.append c] ++
          (bcastCleanup M.feats (fun f => f.onMounted) Ev.onMountedB s1.cleanups).2 ++
          (if M.hasAfterMount then [Ev.afterMountHook] else []) ++
          (bcastCleanup M.feats (fun f => f.afterMounted) Ev.afterMountedB
            (bcastCleanup M.feats (fun f => f.onMounted) Ev.onMountedB s1.cleanups).1).2) := by
  simp only [mountTo]
  rw [if_pos (show linit.root.isNone = true from rfl), hens]

/-- C7: when the render method returns a string (its parse being the list
of top-level elements), root resolution requires exactly one top-level
element: with exactly one, the mount succeeds and that element becomes
the root; with zero or several, mountTo throws the fatal configuration
error synchronously. The afterRender chain is assumed to leave the value
untouched (no feature defines afterRender). -/
theorem renderString_single_root (M : LayoutModel) (frag : List DomTree) (c : Nat)
    (hch : ∀ f ∈ M.feats, f.afterRender = none)
    (hrender : M.render = .htmlString frag) :
    (∀ e, frag = [e] →
      ∃ s2 t, mountTo M linit c = .ok (s2, t) ∧ s2.root = some e) ∧
    (frag.length ≠ 1 → mountTo M linit c = .error rootErrMsg) := by
  have hid : runAfterRender M.feats M.render = (M.render, []) :=
    runAfterRender_id M.feats M.render hch
  constructor
  · rintro e rfl
    have hok : resolveRoot (runAfterRender M.feats M.render).1 = .ok e := by
      rw [hid, hrender]
      rfl
    have hens := (ensureRoot_fresh M).2 e hok
    exact ⟨_, _, mountTo_fresh_ok M c _ _ hens, rfl⟩
  · intro hlen
    have herr : resolveRoot (runAfterRender M.feats M.render).1 = .error rootErrMsg := by
      rw [hid, hrender]
      cases frag with
      | nil => rfl
      | cons a t =>
        cases t with
        | nil => exact absurd rfl hlen
        | cons b t2 => rfl
    exact mountTo_fresh_err M c rootErrMsg ((ensureRoot_fresh M).1 rootErrMsg herr)

/-- Witness for C7: the markup with a single top-level div (with two span
children) mounts with that div as root; the markup with two top-level
span elements throws the fatal single-root error. -/
theorem renderString_witness :
    (∃ s2 t, mountTo M7ok linit 0 = .ok (s2, t) ∧
      s2.root = some (DomTree.el "div" [DomTree.el "span" [], DomTree.el "span" []])) ∧
    mountTo M7bad linit 0 = .error rootErrMsg := by
  constructor
  · exact (renderString_single_root M7ok
      [DomTree.el "div" [DomTree.el "span" [], DomTree.el "span" []]] 0
      (by intro f hf; cases hf) rfl).1 _ rfl
  · exact (renderString_single_root M7bad
      [DomTree.el "span" [], DomTree.el "span" []] 0
      (by intro f hf; cases hf) rfl).2 (by decide)

end LayoutCore

namespace ChildrenF

theorem crun_append (l1 l2 : List COp) :
    ∀ (s : CState), crun (l1 ++ l2) s =
      ((crun l2 (crun l1 s).1).1, (crun l1 s).2 ++ (crun l2 (crun l1 s).1).2) := by
  induction l1 with
  | nil =>
    intro s
    simp [crun]
  | cons op rest ih =>
    intro s
    show ((crun (rest ++ l2) (cstep s op).1).1,
        (cstep s op).2 ++ (crun (rest ++ l2) (cstep s op).1).2) = _
    rw [ih]
    show _ = ((crun l2 (crun rest (cstep s op).1).1).1,
        ((cstep s op).2 ++ (crun rest (cstep s op).1).2) ++
          (crun l2 (crun rest (cstep s op).1).1).2)
    rw [List.append_assoc]

theorem mem_setAdd (l : List Nat) (x a : Nat) : a ∈ setAdd l x ↔ a ∈ l ∨ a = x := by
  unfold setAdd
  by_cases h : x ∈ l
  · rw [if_pos h]
    constructor
    · exact Or.inl
    · rintro (ha | rfl)
      · exact ha
      · exact h
  · rw [if_neg h]
    simp [List.mem_append]

theorem setAdd_nodup (l : List Nat) (x : Nat) (h : l.Nodup) : (setAdd l x).Nodup := by
  unfold setAdd
  by_cases hx : x ∈ l
  · rw [if_pos hx]
    exact h
  · rw [if_neg hx]
    rw [List.nodup_append]
    exact ⟨h, List.nodup_singleton x, by
      intro a ha hb
      rcases List.mem_singleton.mp hb with rfl
      exact hx ha⟩

theorem destCount_append (t1 t2 : List CEv) (c : Nat) :
    destCount (t1 ++ t2) c = destCount t1 c + destCount t2 c := by
  simp [destCount, List.count_append]

theorem destCount_mounts (l : List (Nat × Nat)) (c : Nat) :
    destCount (l.map (fun p => CEv.mountChild p.2 p.1)) c = 0 := by
  rw [destCount, List.count_eq_zero]
  intro hmem
  rcases List.mem_map.mp hmem with ⟨p, -, hp⟩
  cases hp

theorem destCount_destroys (l : List Nat) (c : Nat) :
    destCount (l.map CEv.destroyChild) c = l.count c := by
  rw [destCount]
  exact List.count_map_of_injective l CEv.destroyChild
    (fun a b hab => by cases hab; rfl) c

theorem crun_children_nodup : ∀ (ops : List COp) (s : CState),
    s.children.Nodup → (crun ops s).1.children.Nodup := by
  intro ops
  induction ops with
  | nil => exact fun s h => h
  | cons op rest ih =>
    intro s h
    simp only [crun]
    apply ih
    cases op with
    | attach c2 host mountOk =>
      by_cases hmk : mountOk = true
      · subst hmk
        simpa [cstep] using setAdd_nodup _ _ h
      · rw [show mountOk = false from by revert hmk; cases mountOk <;> simp]
        simpa [cstep] using h
    | detach c2 =>
      by_cases hmem : c2 ∈ s.children
      · simpa [cstep, if_pos hmem] using h.filter _
      · simpa [cstep, if_neg hmem] using h
    | register c2 => simpa [cstep] using setAdd_nodup _ _ h
    | composeRender c2 host => simpa [cstep] using setAdd_nodup _ _ h
    | onMounted => simpa [cstep] using h
    | hostDestroy => simp [cstep]

theorem cstep_untouched (c : Nat) (s : CState) (op : COp)
    (hne : op ≠ COp.detach c) (hnd : op ≠ COp.hostDestroy)
    (hadd : addsChild op c = false) :
    destCount (cstep s op).2 c = 0 ∧
    (c ∈ s.children → c ∈ (cstep s op).1.children) := by
  cases op with
  | attach c2 host mountOk =>
    by_cases hmk : mountOk = true
    · subst hmk
      have hc2 : ¬ c2 = c := by
        simpa [addsChild] using hadd
      constructor
      · simp [cstep, destCount]
      · intro hc
        simp only [cstep, if_pos rfl]
        exact (mem_setAdd _ _ _).mpr (Or.inl hc)
    · rw [show mountOk = false from by revert hmk; cases mountOk <;> simp]
      constructor
      · simp [cstep, destCount]
      · intro hc
        simpa [cstep] using hc
  | detach c2 =>
    have hc2 : ¬ c2 = c := by
      intro hk
      subst hk
      exact hne rfl
    by_cases hmem : c2 ∈ s.children
    · constructor
      · simp [cstep, if_pos hmem, destCount, List.count_cons, hc2]
      · intro hc
        simp only [cstep, if_pos hmem]
        exact List.mem_filter.mpr ⟨hc, decide_eq_true (fun hy => hc2 hy.symm)⟩
    · constructor
      · simp [cstep, if_neg hmem, destCount]
      · intro hc
        simpa [cstep, if_neg hmem] using hc
  | register c2 =>
    have hc2 : ¬ c2 = c := by
      simpa [addsChild] using hadd
    exact ⟨by simp [cstep, destCount], fun hc => (mem_setAdd _ _ _).mpr (Or.inl hc)⟩
  | composeRender c2 host =>
    have hc2 : ¬ c2 = c := by
      simpa [addsChild] using hadd
    exact ⟨by simp [cstep, destCount], fun hc => (mem_setAdd _ _ _).mpr (Or.inl hc)⟩
  | onMounted =>
    exact ⟨destCount_mounts s.pending c, fun hc => hc⟩
  | hostDestroy => exact absurd rfl hnd

theorem crun_no_add (c : Nat) : ∀ (ops : List COp) (s : CState),
    (∀ op ∈ ops, addsChild op c = false) → c ∉ s.children →
    destCount (crun ops s).2 c = 0 ∧ c ∉ (crun ops s).1.children := by
  intro ops
  induction ops with
  | nil =>
    intro s _ hc
    exact ⟨rfl, hc⟩
  | cons op rest ih =>
    intro s hall hc
    have hop := hall op (List.mem_cons_self op rest)
    have hstep : destCount (cstep s op).2 c = 0 ∧ c ∉ (cstep s op).1.children := by
      cases op with
      | attach c2 host mountOk =>
        by_cases hmk : mountOk = true
        · subst hmk
          have hc2 : ¬ c2 = c := by
            simpa [addsChild] using hop
          refine ⟨by simp [cstep, destCount], ?_⟩
          intro hmem
          rcases (mem_setAdd _ _ _).mp (by simpa [cstep] using hmem) with hmem2 | rfl
          · exact hc hmem2
          · exact hc2 rfl
        · rw [show mountOk = false from by revert hmk; cases mountOk <;> simp]
          exact ⟨by simp [cstep, destCount], by simpa [cstep] using hc⟩
      | detach c2 =>
        by_cases hmem : c2 ∈ s.children
        · have hc2 : ¬ c2 = c := by
            intro hk
            subst hk
            exact hc hmem
          refine ⟨?_, ?_⟩
          · simp [cstep, if_pos hmem, destCount, List.count_cons, hc2]
          · simp only [cstep, if_pos hmem]
            intro hmem2
            exact hc (List.mem_filter.mp hmem2).1
        · exact ⟨by simp [cstep, if_neg hmem, destCount],
            by simpa [cstep, if_neg hmem] using hc⟩
      | register c2 =>
        have hc2 : ¬ c2 = c := by
          simpa [addsChild] using hop
        refine ⟨by simp [cstep, destCount], ?_⟩
        intro hmem
        rcases (mem_setAdd _ _ _).mp (by simpa [cstep] using hmem) with hmem2 | rfl
        · exact hc hmem2
        · exact hc2 rfl
      | composeRender c2 host =>
        have hc2 : ¬ c2 = c := by
          simpa [addsChild] using hop
        refine ⟨by simp [cstep, destCount], ?_⟩
        intro hmem
        rcases (mem_setAdd _ _ _).mp (by simpa [cstep] using hmem) with hmem2 | rfl
        · exact hc hmem2
        · exact hc2 rfl
      | onMounted => exact ⟨destCount_mounts s.pending c, fun hmem => hc hmem⟩
      | hostDestroy =>
        refine ⟨?_, by simp [cstep]⟩
        simp only [cstep]
        rw [destCount_append, destCount_mounts, destCount_destroys]
        simpa using List.count_eq_zero.mpr hc
    have hrest := ih (cstep s op).1
      (fun op2 h2 => hall op2 (List.mem_cons_of_mem op h2)) hstep.2
    refine ⟨?_, hrest.2⟩
    simp only [crun]
    rw [destCount_append, hstep.1, hrest.1]

theorem crun_owned (c : Nat) : ∀ (ops : List COp) (s : CState),
    COp.hostDestroy ∉ ops → noAddAfterDetach c ops →
    (c ∈ s.children ∨ ∃ op ∈ ops, addsChild op c = true) →
    ((COp.detach c ∈ ops →
        destCount (crun ops s).2 c = 1 ∧ c ∉ (crun ops s).1.children) ∧
      (COp.detach c ∉ ops →
        destCount (crun ops s).2 c = 0 ∧ c ∈ (crun ops s).1.children)) := by
  intro ops
  induction ops with
  | nil =>
    intro s _ _ hin
    constructor
    · intro hdet
      cases hdet
    · intro _
      rcases hin with hc | ⟨op, hop, -⟩
      · exact ⟨rfl, hc⟩
      · cases hop
  | cons op rest ih =>
    intro s hnd hno hin
    have hndop : op ≠ COp.hostDestroy := by
      intro hk
      exact hnd (by rw [hk]; exact List.mem_cons_self _ _)
    have hndr : COp.hostDestroy ∉ rest := fun h2 => hnd (List.mem_cons_of_mem op h2)
    by_cases hdet : op = COp.detach c
    · subst hdet
      have hnoadds : ∀ op2 ∈ rest, addsChild op2 c = false := hno.1 rfl
      have hcs : c ∈ s.children := by
        rcases hin with hc | ⟨op2, hop2, hadd2⟩
        · exact hc
        · rcases List.mem_cons.mp hop2 with rfl | hmem
          · simp [addsChild] at hadd2
          · rw [hnoadds op2 hmem] at hadd2
            cases hadd2
      have hcnot : c ∉ (cstep s (COp.detach c)).1.children := by
        simp only [cstep, if_pos hcs]
        intro hmem
        have h2 := List.mem_filter.mp hmem
        simp at h2
      have habs := crun_no_add c rest _ hnoadds hcnot
      constructor
      · intro _
        refine ⟨?_, habs.2⟩
        simp only [crun]
        rw [destCount_append, habs.1]
        simp [cstep, if_pos hcs, destCount]
      · intro hnotdet
        exact absurd (List.mem_cons_self _ _) hnotdet
    · have hnor : noAddAfterDetach c rest := hno.2
      cases haddop : addsChild op c with
      | true =>
        have hmemstep : c ∈ (cstep s op).1.children := by
          cases op with
          | attach c2 host mountOk =>
            have hparts : mountOk = true ∧ c2 = c := by
              revert haddop
              cases mountOk <;> simp [addsChild]
            rcases hparts with ⟨rfl, rfl⟩
            simp only [cstep, if_pos rfl]
            exact (mem_setAdd _ _ _).mpr (Or.inr rfl)
          | register c2 =>
            have hc2 : c2 = c := by simpa [addsChild] using haddop
            subst hc2
            exact (mem_setAdd _ _ _).mpr (Or.inr rfl)
          | composeRender c2 host =>
            have hc2 : c2 = c := by simpa [addsChild] using haddop
            subst hc2
            exact (mem_setAdd _ _ _).mpr (Or.inr rfl)
          | detach c2 => simp [addsChild] at haddop
          | onMounted => simp [addsChild] at haddop
          | hostDestroy => simp [addsChild] at haddop
        have hzero : destCount (cstep s op).2 c = 0 := by
          cases op with
          | attach c2 host mountOk =>
            cases mountOk
            · simp [cstep, destCount]
            · simp [cstep, destCount]
          | register c2 => simp [cstep, destCount]
          | composeRender c2 host => simp [cstep, destCount]
          | detach c2 => simp [addsChild] at haddop
          | onMounted => simp [addsChild] at haddop
          | hostDestroy => simp [addsChild] at haddop
        have hih := ih (cstep s op).1 hndr hnor (Or.inl hmemstep)
        constructor
        · intro hdetmem
          have hdetr : COp.detach c ∈ rest := by
            rcases List.mem_cons.mp hdetmem with heq | hmem
            · exact absurd heq.symm hdet
            · exact hmem
          rcases hih.1 hdetr with ⟨hcount, hmem⟩
          refine ⟨?_, hmem⟩
          simp only [crun]
          rw [destCount_append, hzero, hcount]
        · intro hdetnot
          have hdetr : COp.detach c ∉ rest := fun h2 => hdetnot (List.mem_cons_of_mem op h2)
          rcases hih.2 hdetr with ⟨hcount, hmem⟩
          refine ⟨?_, hmem⟩
          simp only [crun]
          rw [destCount_append, hzero, hcount]
      | false =>
        have hstep := cstep_untouched c s op hdet hndop haddop
        have hin2 : c ∈ (cstep s op).1.children ∨ ∃ op2 ∈ rest, addsChild op2 c = true := by
          rcases hin with hc | ⟨op2, hop2, hadd2⟩
          · exact Or.inl (hstep.2 hc)
          · rcases List.mem_cons.mp hop2 with rfl | hmem
            · rw [haddop] at hadd2
              cases hadd2
            · exact Or.inr ⟨op2, hmem, hadd2⟩
        have hih := ih (cstep s op).1 hndr hnor hin2
        constructor
        · intro hdetmem
          have hdetr : COp.detach c ∈ rest := by
            rcases List.mem_cons.mp hdetmem with heq | hmem
            · exact absurd heq.symm hdet
            · exact hmem
          rcases hih.1 hdetr with ⟨hcount, hmem⟩
          refine ⟨?_, hmem⟩
          simp only [crun]
          rw [destCount_append, hstep.1, hcount]
        · intro hdetnot
          have hdetr : COp.detach c ∉ rest := fun h2 => hdetnot (List.mem_cons_of_mem op h2)
          rcases hih.2 hdetr with ⟨hcount, hmem⟩
          refine ⟨?_, hmem⟩
          simp only [crun]
          rw [destCount_append, hstep.1, hcount]

/-- C4 (amended): for a child c passed at least once to a successful
attach, to register, or to the composition path, and never added again
after a detach, the full run consisting of the operations followed by the
host destroy invokes the destroy of c exactly once; when c was explicitly
detached, that single destroy happened at detach time and the host destroy
adds none, otherwise it happens at host destroy. (The original claim is
refuted when a child is registered again after its detach: it is then
destroyed a second time at host destroy, see the counterexample.) -/
theorem children_destroyed_once (ops : List COp) (c : Nat)
    (hnd : COp.hostDestroy ∉ ops)
    (hadd : ∃ op ∈ ops, addsChild op c = true)
    (hno : noAddAfterDetach c ops) :
    destCount (crun (ops ++ [COp.hostDestroy]) cinit).2 c = 1 ∧
    (COp.detach c ∈ ops → destCount (crun ops cinit).2 c = 1) ∧
    (COp.detach c ∉ ops → destCount (crun ops cinit).2 c = 0) := by
  have hmain := crun_owned c ops cinit hnd hno (Or.inr hadd)
  have hnodup := crun_children_nodup ops cinit (by simp [cinit])
  have hdeststep : ∀ s : CState, destCount (crun [COp.hostDestroy] s).2 c =
      s.children.count c := by
    intro s
    simp only [crun, cstep]
    rw [List.append_nil, destCount_append, destCount_mounts, destCount_destroys]
    simp
  rw [crun_append]
  by_cases hdet : COp.detach c ∈ ops
  · rcases hmain.1 hdet with ⟨hcount, hmem⟩
    refine ⟨?_, fun _ => hcount, fun hn => absurd hdet hn⟩
    rw [destCount_append, hcount, hdeststep, List.count_eq_zero.mpr hmem]
  · rcases hmain.2 hdet with ⟨hcount, hmem⟩
    refine ⟨?_, fun hy => absurd hy hdet, fun _ => hcount⟩
    rw [destCount_append, hcount, hdeststep,
      List.count_eq_one_of_mem hnodup hmem]

/-- Witness for the amended C4: an attached child and an independently
registered sibling are each destroyed exactly once at host destroy. -/
theorem children_destroyed_once_witness :
    destCount (crun ([COp.attach 1 0 true, COp.register 2] ++ [COp.hostDestroy]) cinit).2 1 = 1 ∧
    destCount (crun [COp.attach 1 0 true, COp.register 2] cinit).2 1 = 0 := by
  have h := children_destroyed_once [COp.attach 1 0 true, COp.register 2] 1
    (by decide)
    ⟨COp.attach 1 0 true, List.mem_cons_self _ _, by decide⟩
    (by simp [noAddAfterDetach])
  exact ⟨h.1, h.2.2 (by decide)⟩

/-- Counterexample for C4 as literally stated: a child attached, then
detached (destroyed once), then registered again is destroyed a second
time at host destroy, although it was explicitly detached earlier. -/
theorem children_destroyed_once_counterexample :
    COp.detach 1 ∈ [COp.attach 1 0 true, COp.detach 1, COp.register 1] ∧
    destCount (crun [COp.attach 1 0 true, COp.detach 1, COp.register 1] cinit).2 1 = 1 ∧
    destCount (crun ([COp.attach 1 0 true, COp.detach 1, COp.register 1] ++
      [COp.hostDestroy]) cinit).2 1 = 2 := by decide

/-- C10: attach is atomic on mount failure. The step semantics of an
attach whose awaited mountTo rejects leaves the owned set (and the whole
feature state) unchanged, and a child that is only ever passed to failing
attaches is never destroyed, not even by the host destroy. -/
theorem attach_atomic (s : CState) (c host : Nat) (ops : List COp)
    (hops : ∀ op ∈ ops, addsChild op c = false) :
    cstep s (COp.attach c host false) = (s, [CEv.mountChildFailed c host]) ∧
    destCount (crun ops cinit).2 c = 0 ∧ c ∉ (crun ops cinit).1.children := by
  have h := crun_no_add c ops cinit hops (by simp [cinit])
  exact ⟨rfl, h.1, h.2⟩

/-- Witness for C10: a failing attach followed by the host destroy never
destroys the child, and the owned set stays empty of it. -/
theorem attach_atomic_witness :
    destCount (crun [COp.attach 5 0 false, COp.hostDestroy] cinit).2 5 = 0 ∧
    5 ∉ (crun [COp.attach 5 0 false, COp.hostDestroy] cinit).1.children := by
  have h := attach_atomic cinit 5 0 [COp.attach 5 0 false, COp.hostDestroy] (by decide)
  exact ⟨h.2.1, h.2.2⟩

end ChildrenF

namespace SlotsF

theorem alGet_cons_self {α : Type} (k : String) (v : α) (m : List (String × α)) :
    alGet ((k, v) :: m) k = some v := by
  unfold alGet
  rw [List.find?_cons_of_pos _ (by simp)]
  rfl

theorem alGet_cons_ne {α : Type} (p : String × α) (m : List (String × α)) (k : String)
    (hne : ¬ p.1 = k) : alGet (p :: m) k = alGet m k := by
  unfold alGet
  rw [List.find?_cons_of_neg _ (by simp [hne])]

theorem alGet_replace_of_contains {α : Type} (k : String) (v : α) :
    ∀ (m : List (String × α)), m.any (fun p => p.1 = k) = true →
      alGet (m.map (fun p => if p.1 = k then (k, v) else p)) k = some v := by
  intro m
  induction m with
  | nil => intro hc; simp at hc
  | cons p rest ih =>
    intro hc
    by_cases hk : p.1 = k
    · rw [List.map_cons, if_pos hk]
      exact alGet_cons_self k v _
    · rw [List.map_cons, if_neg hk, alGet_cons_ne _ _ _ hk]
      apply ih
      simpa [hk] using hc

theorem alGet_append_of_not_contains {α : Type} (k : String) (v : α) :
    ∀ (m : List (String × α)), m.any (fun p => p.1 = k) = false →
      alGet (m ++ [(k, v)]) k = some v := by
  intro m
  induction m with
  | nil => exact fun _ => alGet_cons_self k v []
  | cons p rest ih =>
    intro hc
    have hk : ¬ p.1 = k := by
      intro hk
      simp [hk] at hc
    rw [List.cons_append, alGet_cons_ne _ _ _ hk]
    apply ih
    simpa [hk] using hc

theorem alGet_alSet_same {α : Type} (m : List (String × α)) (k : String) (v : α) :
    alGet (alSet m k v) k = some v := by
  unfold alSet
  by_cases hc : m.any (fun p => p.1 = k) = true
  · rw [if_pos hc]
    exact alGet_replace_of_contains k v m hc
  · rw [if_neg hc]
    refine alGet_append_of_not_contains k v m ?_
    cases hb : m.any (fun p => p.1 = k)
    · rfl
    · exact absurd hb hc

theorem setSlot_undiscovered (h : SHost) (name : String) (v : SlotContent)
    (hundisc : alGet h.slots.slotMap name = none) :
    setSlot h name v =
      (⟨⟨h.slots.slotMap, h.slots.wrapped,
          alSet h.slots.pending name (((alGet h.slots.pending name).getD []) ++ [v]),
          h.slots.flushing⟩, h.childFeat⟩, []) := by
  simp only [setSlot]
  rw [hundisc]
  rfl

theorem setSlot_discovered (h : SHost) (name : String) (v : SlotContent)
    (tpl : List SlotContent) (hdisc : alGet h.slots.slotMap name = some tpl) :
    alGet ((setSlot h name v).1).slots.wrapped name = some [v] ∧
    ((setSlot h name v).1).slots.slotMap = h.slots.slotMap ∧
    ((setSlot h name v).1).slots.pending = h.slots.pending ∧
    ((setSlot h name v).1).slots.flushing = h.slots.flushing := by
  simp only [setSlot]
  rw [hdisc]
  rw [if_neg (by simp)]
  cases v with
  | text str => exact ⟨alGet_alSet_same _ _ _, rfl, rfl, rfl⟩
  | node n => exact ⟨alGet_alSet_same _ _ _, rfl, rfl, rfl⟩
  | layout c =>
    cases hcf : h.childFeat with
    | none => exact ⟨alGet_alSet_same _ _ _, rfl, rfl, rfl⟩
    | some cs => exact ⟨alGet_alSet_same _ _ _, rfl, rfl, rfl⟩

theorem replay_last (name : String) :
    ∀ (l : List SlotContent) (v : SlotContent) (h : SHost) (tpl : List SlotContent),
      alGet h.slots.slotMap name = some tpl →
      alGet ((replay name (l ++ [v]) h).1).slots.wrapped name = some [v] := by
  intro l
  induction l with
  | nil =>
    intro v h tpl hdisc
    have hs := setSlot_discovered h name v tpl hdisc
    exact hs.1
  | cons a rest ih =>
    intro v h tpl hdisc
    have hs := setSlot_discovered h name a tpl hdisc
    show alGet ((replay name (rest ++ [v]) (setSlot h name a).1).1).slots.wrapped name =
      some [v]
    exact ih v (setSlot h name a).1 tpl (by rw [hs.2.1]; exact hdisc)

theorem setSlots_state (name : String) :
    ∀ (vs acc : List SlotContent) (wr : List (String × List SlotContent))
      (fl : Bool) (cf : Option ChildrenF.CState),
      (setSlots ⟨⟨[], wr, [(name, acc)], fl⟩, cf⟩ name vs).1 =
        ⟨⟨[], wr, [(name, acc ++ vs)], fl⟩, cf⟩ := by
  intro vs
  induction vs with
  | nil =>
    intro acc wr fl cf
    simp [setSlots]
  | cons v rest ih =>
    intro acc wr fl cf
    have hstep := setSlot_undiscovered ⟨⟨[], wr, [(name, acc)], fl⟩, cf⟩ name v rfl
    have hpend : alSet ([(name, acc)] : List (String × List SlotContent)) name
        (((alGet ([(name, acc)] : List (String × List SlotContent)) name).getD []) ++ [v]) =
        [(name, acc ++ [v])] := by
      rw [alGet_cons_self]
      show alSet [(name, acc)] name (acc ++ [v]) = [(name, acc ++ [v])]
      unfold alSet
      rw [if_pos (by simp)]
      simp
    simp only [setSlots]
    rw [hstep]
    show (setSlots ⟨⟨[], wr,
        alSet ([(name, acc)] : List (String × List SlotContent)) name
          (((alGet ([(name, acc)] : List (String × List SlotContent)) name).getD []) ++ [v]),
        fl⟩, cf⟩ name rest).1 = _
    rw [hpend]
    rw [ih (acc ++ [v]) wr fl cf]
    simp

/-- C6: values set into a not yet discovered slot queue in order (the
pending entry of the slot holds exactly the submitted list), and once the
placeholder is discovered and flushed the region between the markers holds
exactly the last queued value - every replayed set fully replaces the
region, so no earlier value remains. -/
theorem slots_queue_last_wins (cf : Option ChildrenF.CState) (name : String)
    (vs vs0 : List SlotContent) (vlast : SlotContent) (tpl : List SlotContent)
    (hvs : vs = vs0 ++ [vlast]) :
    alGet ((setSlots ⟨⟨[], [], [], false⟩, cf⟩ name vs).1).slots.pending name = some vs ∧
    alGet (((onRootCreated (setSlots ⟨⟨[], [], [], false⟩, cf⟩ name vs).1
      [(name, tpl)]).1).slots.wrapped) name = some [vlast] := by
  have hq : (setSlots ⟨⟨[], [], [], false⟩, cf⟩ name vs).1 =
      ⟨⟨[], [], [(name, vs)], false⟩, cf⟩ := by
    cases hvs2 : vs with
    | nil =>
      rw [hvs2] at hvs
      exact absurd hvs.symm (List.append_ne_nil_of_right_ne_nil vs0 (by simp))
    | cons a t =>
      have hstep := setSlot_undiscovered ⟨⟨[], [], [], false⟩, cf⟩ name a rfl
      simp only [setSlots]
      rw [hstep]
      show (setSlots ⟨⟨[], [], [(name, [a])], false⟩, cf⟩ name t).1 = _
      rw [setSlots_state name t [a] [] false cf]
      simp
  have h2 : (onRootCreated (⟨⟨[], [], [(name, vs)], false⟩, cf⟩ : SHost) [(name, tpl)]) =
      flush ⟨⟨[(name, tpl)], [], [(name, vs)], false⟩, cf⟩ := by
    unfold onRootCreated
    rfl
  have h3 : ((flush (⟨⟨[(name, tpl)], [], [(name, vs)], false⟩, cf⟩ : SHost)).1).slots.wrapped =
      ((replay name vs (⟨⟨[(name, tpl)], [], [], true⟩, cf⟩ : SHost)).1).slots.wrapped := by
    unfold flush
    rw [if_neg (by simp)]
    show ((flushLoop [(name, vs)] ⟨⟨[(name, tpl)], [], [], true⟩, cf⟩).1).slots.wrapped = _
    unfold flushLoop
    rw [if_neg (by rw [alGet_cons_self]; simp)]
    rfl
  constructor
  · rw [hq]
    exact alGet_cons_self name vs []
  · rw [hq, h2, h3, hvs]
    exact replay_last name vs0 vlast _ tpl (alGet_cons_self name tpl [])

/-- Witness for C6 at the header scenario of the specification: Hi then
Bye queued before discovery, Bye alone displayed after discovery. -/
theorem slots_queue_last_wins_witness :
    alGet ((setSlots ⟨⟨[], [], [], false⟩, none⟩ "header"
      [SlotContent.text "Hi", SlotContent.text "Bye"]).1).slots.pending "header" =
      some [SlotContent.text "Hi", SlotContent.text "Bye"] ∧
    alGet (((onRootCreated (setSlots ⟨⟨[], [], [], false⟩, none⟩ "header"
      [SlotContent.text "Hi", SlotContent.text "Bye"]).1 [("header", [])]).1).slots.wrapped)
      "header" = some [SlotContent.text "Bye"] :=
  slots_queue_last_wins none "header"
    [SlotContent.text "Hi", SlotContent.text "Bye"] [SlotContent.text "Hi"]
    (SlotContent.text "Bye") [] rfl

/-- C9 (amended): replacing the content of a discovered slot whose region
currently holds a mounted sub component performs no destroy at all - the
old nodes are merely removed from the DOM - and when the ChildrenFeature
is present the replaced component stays in the owned set (it is destroyed
only later, by the cascade at host destroy). -/
theorem setSlot_replace_no_destroy (h : SHost) (name : String) (prev : Nat)
    (content : SlotContent) (tpl : List SlotContent)
    (hdisc : alGet h.slots.slotMap name = some tpl)
    (hprev : alGet h.slots.wrapped name = some [SlotContent.layout prev]) :
    (∀ c2, ChildrenF.CEv.destroyChild c2 ∉ (setSlot h name content).2) ∧
    (prev ∈ childrenOf h → prev ∈ childrenOf (setSlot h name content).1) := by
  simp only [setSlot]
  rw [hdisc]
  rw [if_neg (by simp)]
  cases content with
  | text str =>
    constructor
    · intro c2 hc
      simp at hc
    · exact fun hp => hp
  | node n =>
    constructor
    · intro c2 hc
      simp at hc
    · exact fun hp => hp
  | layout c =>
    cases hcf : h.childFeat with
    | none =>
      constructor
      · intro c2 hc
        simp at hc
      · intro hp
        have hempty : childrenOf h = [] := by
          unfold childrenOf
          rw [hcf]
        rw [hempty] at hp
        cases hp
    | some cs =>
      constructor
      · intro c2 hc
        simp at hc
      · intro hp
        have hch : childrenOf h = cs.children := by
          unfold childrenOf
          rw [hcf]
        rw [hch] at hp
        show prev ∈ ChildrenF.setAdd cs.children c
        exact (ChildrenF.mem_setAdd _ _ _).mpr (Or.inl hp)

/-- Witness for the amended C9 at the concrete host h9. -/
theorem setSlot_replace_no_destroy_witness :
    (ChildrenF.CEv.destroyChild 1 ∉ (setSlot h9 "s" (SlotContent.layout 2)).2) ∧
    1 ∈ childrenOf (setSlot h9 "s" (SlotContent.layout 2)).1 := by
  have h := setSlot_replace_no_destroy h9 "s" 1 (SlotContent.layout 2) []
    (by decide) (by decide)
  exact ⟨h.1 1, h.2 (by decide)⟩

/-- Counterexample for C9 as literally stated: with slot s holding the
mounted child layout 1, setting new content emits only the mount of the
new child - no detach and no destroy of child 1 happens before the new
content is inserted, and child 1 remains in the owned set. -/
theorem setSlot_replace_counterexample :
    alGet c9h1.slots.wrapped "s" = some [SlotContent.layout 1] ∧
    (setSlot c9h1 "s" (SlotContent.layout 2)).2 = [ChildrenF.CEv.mountChild 2 0] ∧
    1 ∈ childrenOf (setSlot c9h1 "s" (SlotContent.layout 2)).1 ∧
    alGet ((setSlot c9h1 "s" (SlotContent.layout 2)).1).slots.wrapped "s" =
      some [SlotContent.layout 2] := by decide

end SlotsF
